import Mathlib

/-!
Verification of the YANET concurrent hash-table specification (spec.md)
against the repository sources.

The repository ships two source files: `hashtable_benchmark.cpp` (the
benchmark harness that drives the tables) and `value_size_calculator.cpp`
(an informational listing, out of scope).  The hash tables themselves live
in `dataplane/hashtable.h`, which is only *included* by the benchmark and
is not part of the repository snapshot; accordingly the two tables
(`hashtable_chain_spinlock_t`, CHAIN, and `hashtable_mod_spinlock_dynamic`,
MOD) are modelled from the specification text (spec.md sections 3-7),
while the helpers that do appear in `hashtable_benchmark.cpp`
(`writer_thread_chain_spinlock`, `format_number`, the benchmark constants)
are embedded directly from that source.

Modelling conventions:
* Machine integers are modelled as `Nat`; the one place where a C counter
  (`uint64_t write_checksum`) could conceivably wrap, the accumulation is
  performed explicitly modulo `2 ^ 64`.
* A slot of a chunk is `Option (K × V)` (`none` = empty, `some (k, v)` =
  occupied).
* The CHAIN table's per-bucket chain "primary chunk -> linked extended
  chunks" is modelled as the flattened list of the chain's slots together
  with the number of extended chunks linked behind the primary chunk;
  chunk boundaries only matter through the slot counts `c1` and `c2` and
  through the chain-length statistics, both of which are recovered from
  `extCount`.  The shared free pool is a counter `poolUsed` that only
  grows (spec 3, "the pool index only grows").
* The MOD table keeps its chunks explicitly, because probing and locking
  are per chunk.
* Spinlocks are modelled by the sequence of acquire/release events an
  operation performs, so that "returns with the lock held" is the list of
  locks still held after the event trace.
-/

set_option autoImplicit false
set_option linter.unusedSectionVars false

namespace Yanet

/-- One pair slot of a chunk: empty or an inline (key, value) record. -/
abbrev Slot (K V : Type) := Option (K × V)

variable {K V : Type}

/-- The view a key-equality scan for `k` has of a slot: the stored value if
the slot holds `k`, and nothing otherwise (empty slots and slots holding
other keys are indistinguishable to the scan). -/
def slotView [DecidableEq K] (k : K) (s : Slot K V) : Option V :=
  match s with
  | some p => if p.1 = k then some p.2 else none
  | none => none

/-- Is the slot occupied by key `k`? -/
def slotKeyIs [DecidableEq K] (k : K) (s : Slot K V) : Bool :=
  match s with
  | some p => decide (p.1 = k)
  | none => false

/-- First `some` of a list of options. -/
def firstSome : List (Option V) → Option V
  | [] => none
  | some v :: _ => some v
  | none :: rest => firstSome rest

/-- Linear scan of a slot sequence for key `k`: value of the first slot
occupied by `k`. -/
def lookupSlots [DecidableEq K] : List (Slot K V) → K → Option V
  | [], _ => none
  | none :: rest, k => lookupSlots rest k
  | some p :: rest, k => if p.1 = k then some p.2 else lookupSlots rest k

/-- Overwrite the value of the first slot occupied by `k`; `none` when no
slot holds `k`. -/
def overwriteSlots [DecidableEq K] : List (Slot K V) → K → V → Option (List (Slot K V))
  | [], _, _ => none
  | some p :: rest, k, v =>
      if p.1 = k then some (some (k, v) :: rest)
      else (overwriteSlots rest k v).map (fun l => some p :: l)
  | none :: rest, k, v => (overwriteSlots rest k v).map (fun l => none :: l)

/-- Place `(k, v)` in the first empty slot; `none` when every slot is
occupied. -/
def fillSlots [DecidableEq K] : List (Slot K V) → K → V → Option (List (Slot K V))
  | [], _, _ => none
  | none :: rest, k, v => some (some (k, v) :: rest)
  | some p :: rest, k, v => (fillSlots rest k v).map (fun l => some p :: l)

/-- Keys of the occupied slots, in slot order. -/
def keysOf : List (Slot K V) → List K :=
  fun l => l.filterMap (fun s => s.map Prod.fst)

/-- Number of occupied slots. -/
def occCount : List (Slot K V) → Nat :=
  fun l => l.countP (fun s => s.isSome)

/-! ### Generic list facts used by both tables -/

theorem getD_set_ne {α : Type} (l : List α) (i j : Nat) (a d : α) (h : i ≠ j) :
    (l.set i a).getD j d = l.getD j d := by
  induction l generalizing i j with
  | nil => simp
  | cons x rest ih =>
    cases i with
    | zero =>
      cases j with
      | zero => exact absurd rfl h
      | succ j => simp [List.getD]
    | succ i =>
      cases j with
      | zero => simp [List.getD]
      | succ j =>
        have : i ≠ j := fun hc => h (by simp [hc])
        simpa [List.getD] using ih i j this

theorem getD_set_self {α : Type} (l : List α) (i : Nat) (a d : α) (h : i < l.length) :
    (l.set i a).getD i d = a := by
  induction l generalizing i with
  | nil => simp at h
  | cons x rest ih =>
    cases i with
    | zero => simp [List.getD]
    | succ i => simpa [List.getD] using ih i (by simpa using h)

theorem getD_eq_of_length_le {α : Type} (l : List α) (i : Nat) (d : α) (h : l.length ≤ i) :
    l.getD i d = d := by
  simp [List.getD, List.getElem?_eq_none h]

theorem sum_map_set {α : Type} (f : α → Nat) (l : List α) (i : Nat) (a d : α)
    (h : i < l.length) :
    ((l.set i a).map f).sum + f (l.getD i d) = (l.map f).sum + f a := by
  induction l generalizing i with
  | nil => simp at h
  | cons x rest ih =>
    cases i with
    | zero => simp [List.getD]; omega
    | succ i =>
      have hi : i < rest.length := by simpa using h
      have := ih i hi
      simp only [List.set, List.map, List.sum_cons, List.getD_cons_succ] at *
      omega

theorem sum_map_ge_at {α : Type} (f g : α → Nat) (l : List α) (i : Nat) (d : α)
    (hi : i < l.length) (hfg : ∀ a ∈ l, g a ≤ f a) :
    f (l.getD i d) + (l.map g).sum ≤ (l.map f).sum + g (l.getD i d) := by
  induction l generalizing i with
  | nil => simp at hi
  | cons x rest ih =>
    cases i with
    | zero =>
      have hrest : (rest.map g).sum ≤ (rest.map f).sum :=
        List.sum_le_sum (fun a ha => hfg a (List.mem_cons_of_mem _ ha))
      simp only [List.getD, List.map, List.sum_cons]
      simp
      omega
    | succ i =>
      have hi2 : i < rest.length := by simpa using hi
      have hx := hfg x (List.mem_cons_self x rest)
      have := ih i hi2 (fun a ha => hfg a (List.mem_cons_of_mem _ ha))
      simp only [List.getD_cons_succ, List.map, List.sum_cons] at *
      omega

theorem find?_append_of_some {α : Type} (p : α → Bool) (l1 l2 : List α) (a : α)
    (h : l1.find? p = some a) : (l1 ++ l2).find? p = some a := by
  induction l1 with
  | nil => simp [List.find?] at h
  | cons x rest ih =>
    cases hx : p x with
    | true => simp_all [List.find?]
    | false => simp_all [List.find?]

theorem find?_append_of_none {α : Type} (p : α → Bool) (l1 l2 : List α)
    (h : l1.find? p = none) : (l1 ++ l2).find? p = l2.find? p := by
  induction l1 with
  | nil => simp
  | cons x rest ih =>
    cases hx : p x with
    | true => simp_all [List.find?]
    | false => simp_all [List.find?]

theorem foldlM_eq_foldl_of_some {α β : Type} (g : β → α → Option β) (f : β → α → β)
    (l : List α) (h : ∀ acc, ∀ a ∈ l, g acc a = some (f acc a)) (b : β) :
    l.foldlM g b = some (l.foldl f b) := by
  induction l generalizing b with
  | nil => rfl
  | cons x rest ih =>
    have hx := h b x (List.mem_cons_self x rest)
    simp only [List.foldlM, hx, Option.bind_eq_bind, Option.some_bind, List.foldl]
    exact ih (fun acc a ha => h acc a (List.mem_cons_of_mem _ ha)) (f b x)

theorem foldl_add_filter_mod {α : Type} (M : Nat) (p : α → Prop) [DecidablePred p]
    (f : α → Nat) (l : List α) (c : Nat) :
    l.foldl (fun acc a => if p a then (acc + f a) % M else acc) (c % M)
      = (c + ((l.filter (fun a => decide (p a))).map f).sum) % M := by
  induction l generalizing c with
  | nil => simp
  | cons x rest ih =>
    by_cases hx : p x
    · have h1 : (c % M + f x) % M = (c + f x) % M := by
        conv_rhs => rw [Nat.add_mod]
        rw [Nat.add_mod (c % M)]
        simp [Nat.mod_mod_of_dvd]
      simp only [List.foldl, List.filter, hx, if_pos, decide_eq_true_eq, h1]
      rw [ih (c + f x)]
      simp [Nat.add_assoc, hx]
    · simp only [List.foldl, List.filter, hx, if_neg, not_false_iff]
      rw [ih c]
      simp [hx]

theorem list_sum_zero_of_all_zero {l : List Nat} (h : ∀ x ∈ l, x = 0) : l.sum = 0 := by
  induction l with
  | nil => rfl
  | cons x rest ih =>
    have := h x (List.mem_cons_self x rest)
    simp [this, ih (fun y hy => h y (List.mem_cons_of_mem _ hy))]

/-! ### Facts about `lookupSlots`, `overwriteSlots`, `fillSlots` -/

theorem lookupSlots_eq_firstSome [DecidableEq K] (l : List (Slot K V)) (k : K) :
    lookupSlots l k = firstSome (l.map (slotView k)) := by
  induction l with
  | nil => rfl
  | cons s rest ih =>
    cases s with
    | none => simpa [lookupSlots, slotView, firstSome] using ih
    | some p =>
      by_cases h : p.1 = k
      · simp [lookupSlots, slotView, h, firstSome]
      · simp [lookupSlots, slotView, h, firstSome, ih]

theorem lookupSlots_append_some [DecidableEq K] {a : List (Slot K V)} (b : List (Slot K V))
    {k : K} {v : V} (h : lookupSlots a k = some v) : lookupSlots (a ++ b) k = some v := by
  induction a with
  | nil => simp [lookupSlots] at h
  | cons s rest ih =>
    cases s with
    | none => simpa [lookupSlots] using ih (by simpa [lookupSlots] using h)
    | some p =>
      by_cases hp : p.1 = k
      · simp only [lookupSlots, hp, if_pos] at h ⊢
        simpa using h
      · simp only [lookupSlots, hp, if_neg, not_false_iff, List.cons_append] at h ⊢
        exact ih h

theorem lookupSlots_append_none [DecidableEq K] {a : List (Slot K V)} (b : List (Slot K V))
    {k : K} (h : lookupSlots a k = none) : lookupSlots (a ++ b) k = lookupSlots b k := by
  induction a with
  | nil => simp
  | cons s rest ih =>
    cases s with
    | none => simpa [lookupSlots] using ih (by simpa [lookupSlots] using h)
    | some p =>
      by_cases hp : p.1 = k
      · simp [lookupSlots, hp] at h
      · simp only [lookupSlots, hp, if_neg, not_false_iff, List.cons_append] at h ⊢
        exact ih h

theorem lookupSlots_eq_none_iff [DecidableEq K] (l : List (Slot K V)) (k : K) :
    lookupSlots l k = none ↔ ∀ s ∈ l, slotView k s = none := by
  induction l with
  | nil => simp [lookupSlots]
  | cons s rest ih =>
    cases s with
    | none => simp [lookupSlots, slotView, ih]
    | some p =>
      by_cases hp : p.1 = k
      · simp [lookupSlots, slotView, hp]
      · simp [lookupSlots, slotView, hp, ih]

theorem lookupSlots_eq_none_iff_keys [DecidableEq K] (l : List (Slot K V)) (k : K) :
    lookupSlots l k = none ↔ k ∉ keysOf l := by
  induction l with
  | nil => simp [lookupSlots, keysOf]
  | cons s rest ih =>
    cases s with
    | none => simpa [lookupSlots, keysOf] using ih
    | some p =>
      by_cases hp : p.1 = k
      · simp [lookupSlots, keysOf, hp]
      · simp only [lookupSlots, hp, if_neg, not_false_iff, keysOf, List.filterMap_cons,
          Option.map_some]
        rw [ih]
        constructor
        · intro h hmem
          rcases List.mem_cons.mp hmem with h1 | h1
          · exact hp h1.symm
          · exact h h1
        · intro h hmem
          exact h (List.mem_cons_of_mem _ hmem)

theorem lookupSlots_replicate_none [DecidableEq K] (n : Nat) (k : K) :
    lookupSlots (List.replicate n (none : Slot K V)) k = none := by
  induction n with
  | zero => rfl
  | succ n ih => simpa [List.replicate_succ, lookupSlots] using ih

theorem overwriteSlots_eq_none_iff [DecidableEq K] (l : List (Slot K V)) (k : K) (v : V) :
    overwriteSlots l k v = none ↔ lookupSlots l k = none := by
  induction l with
  | nil => simp [overwriteSlots, lookupSlots]
  | cons s rest ih =>
    cases s with
    | none => simpa [overwriteSlots, lookupSlots, Option.map_eq_none'] using ih
    | some p =>
      by_cases hp : p.1 = k
      · simp [overwriteSlots, lookupSlots, hp]
      · simpa [overwriteSlots, lookupSlots, hp, Option.map_eq_none'] using ih

theorem overwriteSlots_some_lookup [DecidableEq K] {l l2 : List (Slot K V)} {k : K} {v : V}
    (h : overwriteSlots l k v = some l2) : lookupSlots l2 k = some v := by
  induction l generalizing l2 with
  | nil => simp [overwriteSlots] at h
  | cons s rest ih =>
    cases s with
    | none =>
      simp only [overwriteSlots, Option.map_eq_some'] at h
      obtain ⟨a, ha, rfl⟩ := h
      simpa [lookupSlots] using ih ha
    | some p =>
      by_cases hp : p.1 = k
      · simp only [overwriteSlots, hp, if_pos, Option.some_inj] at h
        subst h
        simp [lookupSlots]
      · simp only [overwriteSlots, hp, if_neg, not_false_iff, Option.map_eq_some'] at h
        obtain ⟨a, ha, rfl⟩ := h
        simpa [lookupSlots, hp] using ih ha

theorem overwriteSlots_some_view [DecidableEq K] {l l2 : List (Slot K V)} {k : K} {v : V}
    (h : overwriteSlots l k v = some l2) (k2 : K) (hk : k2 ≠ k) :
    l2.map (slotView k2) = l.map (slotView k2) := by
  induction l generalizing l2 with
  | nil => simp [overwriteSlots] at h
  | cons s rest ih =>
    cases s with
    | none =>
      simp only [overwriteSlots, Option.map_eq_some'] at h
      obtain ⟨a, ha, rfl⟩ := h
      simpa using ih ha
    | some p =>
      by_cases hp : p.1 = k
      · simp only [overwriteSlots, hp, if_pos, Option.some_inj] at h
        subst h
        have hkk : ¬(k = k2) := fun hc => hk hc.symm
        simp [slotView, hp, hkk]
      · simp only [overwriteSlots, hp, if_neg, not_false_iff, Option.map_eq_some'] at h
        obtain ⟨a, ha, rfl⟩ := h
        simpa using ih ha

theorem overwriteSlots_some_keys [DecidableEq K] {l l2 : List (Slot K V)} {k : K} {v : V}
    (h : overwriteSlots l k v = some l2) : keysOf l2 = keysOf l := by
  induction l generalizing l2 with
  | nil => simp [overwriteSlots] at h
  | cons s rest ih =>
    cases s with
    | none =>
      simp only [overwriteSlots, Option.map_eq_some'] at h
      obtain ⟨a, ha, rfl⟩ := h
      simpa [keysOf] using ih ha
    | some p =>
      by_cases hp : p.1 = k
      · simp only [overwriteSlots, hp, if_pos, Option.some_inj] at h
        subst h
        simp [keysOf, hp]
      · simp only [overwriteSlots, hp, if_neg, not_false_iff, Option.map_eq_some'] at h
        obtain ⟨a, ha, rfl⟩ := h
        simpa [keysOf] using ih ha

theorem overwriteSlots_some_occ [DecidableEq K] {l l2 : List (Slot K V)} {k : K} {v : V}
    (h : overwriteSlots l k v = some l2) : occCount l2 = occCount l := by
  induction l generalizing l2 with
  | nil => simp [overwriteSlots] at h
  | cons s rest ih =>
    cases s with
    | none =>
      simp only [overwriteSlots, Option.map_eq_some'] at h
      obtain ⟨a, ha, rfl⟩ := h
      simpa [occCount, List.countP_cons] using ih ha
    | some p =>
      by_cases hp : p.1 = k
      · simp only [overwriteSlots, hp, if_pos, Option.some_inj] at h
        subst h
        simp [occCount, List.countP_cons]
      · simp only [overwriteSlots, hp, if_neg, not_false_iff, Option.map_eq_some'] at h
        obtain ⟨a, ha, rfl⟩ := h
        simpa [occCount, List.countP_cons] using ih ha

theorem overwriteSlots_some_length [DecidableEq K] {l l2 : List (Slot K V)} {k : K} {v : V}
    (h : overwriteSlots l k v = some l2) : l2.length = l.length := by
  induction l generalizing l2 with
  | nil => simp [overwriteSlots] at h
  | cons s rest ih =>
    cases s with
    | none =>
      simp only [overwriteSlots, Option.map_eq_some'] at h
      obtain ⟨a, ha, rfl⟩ := h
      simpa using ih ha
    | some p =>
      by_cases hp : p.1 = k
      · simp only [overwriteSlots, hp, if_pos, Option.some_inj] at h
        subst h
        simp
      · simp only [overwriteSlots, hp, if_neg, not_false_iff, Option.map_eq_some'] at h
        obtain ⟨a, ha, rfl⟩ := h
        simpa using ih ha

theorem fillSlots_eq_none_iff [DecidableEq K] (l : List (Slot K V)) (k : K) (v : V) :
    fillSlots l k v = none ↔ ∀ s ∈ l, s.isSome = true := by
  induction l with
  | nil => simp [fillSlots]
  | cons s rest ih =>
    cases s with
    | none => simp [fillSlots]
    | some p => simpa [fillSlots, Option.map_eq_none'] using ih

theorem fillSlots_some_lookup [DecidableEq K] {l l2 : List (Slot K V)} {k : K} {v : V}
    (h : fillSlots l k v = some l2) (hmiss : lookupSlots l k = none) :
    lookupSlots l2 k = some v := by
  induction l generalizing l2 with
  | nil => simp [fillSlots] at h
  | cons s rest ih =>
    cases s with
    | none =>
      simp only [fillSlots, Option.some_inj] at h
      subst h
      simp [lookupSlots]
    | some p =>
      by_cases hp : p.1 = k
      · simp [lookupSlots, hp] at hmiss
      · simp only [fillSlots, Option.map_eq_some'] at h
        obtain ⟨a, ha, rfl⟩ := h
        simp only [lookupSlots, hp, if_neg, not_false_iff] at hmiss ⊢
        exact ih ha hmiss

theorem fillSlots_some_view [DecidableEq K] {l l2 : List (Slot K V)} {k : K} {v : V}
    (h : fillSlots l k v = some l2) (k2 : K) (hk : k2 ≠ k) :
    l2.map (slotView k2) = l.map (slotView k2) := by
  induction l generalizing l2 with
  | nil => simp [fillSlots] at h
  | cons s rest ih =>
    cases s with
    | none =>
      simp only [fillSlots, Option.some_inj] at h
      subst h
      have hkk : ¬(k = k2) := fun hc => hk hc.symm
      simp [slotView, hkk]
    | some p =>
      simp only [fillSlots, Option.map_eq_some'] at h
      obtain ⟨a, ha, rfl⟩ := h
      simpa using ih ha

theorem fillSlots_some_occ [DecidableEq K] {l l2 : List (Slot K V)} {k : K} {v : V}
    (h : fillSlots l k v = some l2) : occCount l2 = occCount l + 1 := by
  induction l generalizing l2 with
  | nil => simp [fillSlots] at h
  | cons s rest ih =>
    cases s with
    | none =>
      simp only [fillSlots, Option.some_inj] at h
      subst h
      simp [occCount, List.countP_cons]
    | some p =>
      simp only [fillSlots, Option.map_eq_some'] at h
      obtain ⟨a, ha, rfl⟩ := h
      have := ih ha
      simp only [occCount, List.countP_cons] at *
      omega

theorem fillSlots_some_length [DecidableEq K] {l l2 : List (Slot K V)} {k : K} {v : V}
    (h : fillSlots l k v = some l2) : l2.length = l.length := by
  induction l generalizing l2 with
  | nil => simp [fillSlots] at h
  | cons s rest ih =>
    cases s with
    | none =>
      simp only [fillSlots, Option.some_inj] at h
      subst h
      simp
    | some p =>
      simp only [fillSlots, Option.map_eq_some'] at h
      obtain ⟨a, ha, rfl⟩ := h
      simpa using ih ha

theorem fillSlots_some_keys_perm [DecidableEq K] {l l2 : List (Slot K V)} {k : K} {v : V}
    (h : fillSlots l k v = some l2) : (keysOf l2).Perm (k :: keysOf l) := by
  induction l generalizing l2 with
  | nil => simp [fillSlots] at h
  | cons s rest ih =>
    cases s with
    | none =>
      simp only [fillSlots, Option.some_inj] at h
      subst h
      simp [keysOf]
    | some p =>
      simp only [fillSlots, Option.map_eq_some'] at h
      obtain ⟨a, ha, rfl⟩ := h
      have hperm := ih ha
      have h1 : keysOf (some p :: a) = p.1 :: keysOf a := by simp [keysOf]
      have h2 : keysOf (some p :: rest) = p.1 :: keysOf rest := by simp [keysOf]
      rw [h1, h2]
      exact ((hperm.cons p.1).trans (List.Perm.swap k p.1 (keysOf rest)))

theorem keysOf_append (a b : List (Slot K V)) :
    keysOf (a ++ b) = keysOf a ++ keysOf b := by
  simp [keysOf]

theorem occCount_append (a b : List (Slot K V)) :
    occCount (a ++ b) = occCount a + occCount b := by
  simp [occCount, List.countP_append]

theorem keysOf_replicate_none (n : Nat) :
    keysOf (List.replicate n (none : Slot K V)) = [] := by
  induction n with
  | zero => rfl
  | succ n ih => simp [List.replicate_succ, keysOf]

theorem occCount_replicate_none (n : Nat) :
    occCount (List.replicate n (none : Slot K V)) = 0 := by
  induction n with
  | zero => rfl
  | succ n ih => simp [List.replicate_succ, occCount, List.countP_cons]

theorem occCount_length_of_full (l : List (Slot K V)) (h : ∀ s ∈ l, s.isSome = true) :
    occCount l = l.length := by
  simpa [occCount] using List.countP_eq_length.mpr h

theorem occCount_eq_keys_length (l : List (Slot K V)) :
    occCount l = (keysOf l).length := by
  induction l with
  | nil => rfl
  | cons s rest ih =>
    cases s with
    | none => simpa [occCount, keysOf, List.countP_cons] using ih
    | some p =>
      simp only [occCount, keysOf, List.countP_cons, List.filterMap_cons] at *
      simp [ih]

/-! ### Spinlock traces

A `lookup` acquires and possibly releases spinlocks.  We record the trace
of lock events an operation performs; `heldAfter` computes which locks are
still held when the operation returns (spec 4.1/4.2: a hit returns with
the chunk/bucket lock held, a miss releases internally). -/

/-- A lock-acquire or lock-release event on the lock with identity `i`
(bucket index for CHAIN, chunk index for MOD). -/
inductive lock_event where
  | acquire (i : Nat)
  | release (i : Nat)
deriving DecidableEq

/-- Effect of one lock event on the set of held locks. -/
def heldStep (held : List Nat) (e : lock_event) : List Nat :=
  match e with
  | lock_event.acquire i => i :: held
  | lock_event.release i => held.erase i

/-- Locks still held after performing a trace of lock events. -/
def heldAfter (evs : List lock_event) : List Nat :=
  evs.foldl heldStep []

/-- The benchmark caller's unlock step (`if (locker) locker->unlock();`,
`hashtable_benchmark.cpp` lines 214-218): release the returned locker once
if it is non-null. -/
def callerRelease (locker : Option Nat) : List lock_event :=
  match locker with
  | some i => [lock_event.release i]
  | none => []

theorem heldAfter_append (a b : List lock_event) :
    heldAfter (a ++ b) = b.foldl heldStep (heldAfter a) := by
  simp [heldAfter, List.foldl_append]

theorem heldAfter_acquire_release (i : Nat) (evs : List lock_event) :
    heldAfter (lock_event.acquire i :: lock_event.release i :: evs) = heldAfter evs := by
  simp [heldAfter, heldStep, List.foldl_cons, List.erase_cons_head]

/-! ### CHAIN: `dataplane::hashtable_chain_spinlock_t`

Modelled from the spec (spec 2, 3, 4.1): the table header
`dataplane/hashtable.h` is not part of the repository snapshot, so the
CHAIN table is reconstructed from the specification.  A bucket's chain
(primary chunk of `c1` slots plus `extCount` linked extended chunks of
`c2` slots each) is represented by the flattened list of its slots in
chain order together with `extCount`; the shared free pool of `E`
extended chunks is the monotone counter `poolUsed`. -/

/-- CHAIN statistics record (spec 3, "Stats"). -/
structure stats_t where
  pairs : Nat
  extendedChunksCount : Nat
  longestChain : Nat
  insertFailed : Nat
deriving DecidableEq

/-- One CHAIN bucket: the chain's slots in chain order (primary chunk
first), and the number of extended chunks linked into the chain. -/
structure bucket_t (K V : Type) where
  slots : List (Slot K V)
  extCount : Nat

/-- Modelled from the spec: the CHAIN table
`hashtable_chain_spinlock_t<K, V, P, E, c1, c2>` (spec 4.1) with its
compile-time dimensions stored as fields, its `P` buckets, the free-pool
allocation counter and the statistics counters. -/
structure hashtable_chain_spinlock_t (K V : Type) where
  P : Nat
  E : Nat
  c1 : Nat
  c2 : Nat
  hashFn : K → Nat
  buckets : List (bucket_t K V)
  poolUsed : Nat
  pairs : Nat
  extendedChunksCount : Nat
  longestChain : Nat
  insertFailed : Nat

variable [DecidableEq K]

/-- Effective usable key slots, exposed by the table as `keysSize`
(spec 4.1: "Effective usable key slots equal P·c1 + E·c2"). -/
def chain_keysSize (t : hashtable_chain_spinlock_t K V) : Nat :=
  t.P * t.c1 + t.E * t.c2

/-- The bucket stored at index `bi`. -/
def chain_bucket (t : hashtable_chain_spinlock_t K V) (bi : Nat) : bucket_t K V :=
  t.buckets.getD bi ⟨[], 0⟩

/-- Bucket selection: `bucket = H(K) mod P` (spec 4.1). -/
def chain_bucket_index (t : hashtable_chain_spinlock_t K V) (k : K) : Nat :=
  t.hashFn k % t.P

/-- `stats()` snapshot (spec 4.1). -/
def chain_stats (t : hashtable_chain_spinlock_t K V) : stats_t :=
  ⟨t.pairs, t.extendedChunksCount, t.longestChain, t.insertFailed⟩

/-- Modelled from the spec: CHAIN `insert(K, V) → bool` (spec 4.1).
Walk the chain of the primary bucket; overwrite on key equality, else
place in the first empty slot, else link a fresh extended chunk from the
pool (bumping `extendedChunksCount`, `longestChain` and taking the pair's
first slot), else report failure via `insertFailed` and `false`.
`pairs` is incremented only when a previously empty slot is occupied. -/
def chain_insert (t : hashtable_chain_spinlock_t K V) (k : K) (v : V) :
    Bool × hashtable_chain_spinlock_t K V :=
  let bi := chain_bucket_index t k
  let b := chain_bucket t bi
  match overwriteSlots b.slots k v with
  | some s2 => (true, { t with buckets := t.buckets.set bi ⟨s2, b.extCount⟩ })
  | none =>
    match fillSlots b.slots k v with
    | some s2 =>
        (true, { t with
                  buckets := t.buckets.set bi ⟨s2, b.extCount⟩,
                  pairs := t.pairs + 1 })
    | none =>
        if t.poolUsed < t.E then
          (true, { t with
                    buckets := t.buckets.set bi
                      ⟨b.slots ++ (some (k, v) :: List.replicate (t.c2 - 1) none),
                       b.extCount + 1⟩,
                    poolUsed := t.poolUsed + 1,
                    pairs := t.pairs + 1,
                    extendedChunksCount := t.extendedChunksCount + 1,
                    longestChain := max t.longestChain (b.extCount + 2) })
        else
          (false, { t with insertFailed := t.insertFailed + 1 })

/-- Modelled from the spec: CHAIN `lookup(K, out value*, out locker*)`
(spec 4.1).  Acquire the bucket lock and walk the chain: on a hit return
the slot's value and the bucket lock, still held; on a miss return nulls
after releasing the lock internally.  The third component is the trace of
lock events the call performed. -/
def chain_lookup (t : hashtable_chain_spinlock_t K V) (k : K) :
    Option V × Option Nat × List lock_event :=
  let bi := chain_bucket_index t k
  match lookupSlots (chain_bucket t bi).slots k with
  | some v => (some v, some bi, [lock_event.acquire bi])
  | none => (none, none, [lock_event.acquire bi, lock_event.release bi])

/-- Value component of a CHAIN lookup. -/
def chain_lookup_value (t : hashtable_chain_spinlock_t K V) (k : K) : Option V :=
  lookupSlots (chain_bucket t (chain_bucket_index t k)).slots k

/-- Fresh CHAIN table: all `P` buckets hold an empty primary chunk of `c1`
slots, no extended chunks, zeroed statistics (spec 3, Lifecycle: the table
is constructed in zeroed memory, a `clear`-equivalent state). -/
def chain_init (P E c1 c2 : Nat) (hashFn : K → Nat) : hashtable_chain_spinlock_t K V :=
  ⟨P, E, c1, c2, hashFn, List.replicate P ⟨List.replicate c1 none, 0⟩, 0, 0, 0, 0, 0⟩

/-- Modelled from the spec: CHAIN `clear()` (spec 4.1): re-initialize all
buckets to empty, zero the stats and conceptually return all extended
chunks to the pool. -/
def chain_clear (t : hashtable_chain_spinlock_t K V) : hashtable_chain_spinlock_t K V :=
  chain_init t.P t.E t.c1 t.c2 t.hashFn

/-- Run a sequence of `insert` calls. -/
def chain_run (t : hashtable_chain_spinlock_t K V) : List (K × V) → hashtable_chain_spinlock_t K V
  | [] => t
  | (k, v) :: ops => chain_run (chain_insert t k v).2 ops

/-- Run a sequence of `insert` calls, recording each call together with
its boolean result. -/
def chain_run_log (t : hashtable_chain_spinlock_t K V) :
    List (K × V) → List ((K × V) × Bool)
  | [] => []
  | (k, v) :: ops => ((k, v), (chain_insert t k v).1) :: chain_run_log (chain_insert t k v).2 ops

/-- The value of the last *successful* insert for key `k` in a recorded
run, if any. -/
def lastInserted (log : List ((K × V) × Bool)) (k : K) : Option V :=
  (log.reverse.find? (fun e => e.2 && decide (e.1.1 = k))).map (fun e => e.1.2)

/-- Did every insert of the run succeed? -/
def allSucceeded (log : List ((K × V) × Bool)) : Bool :=
  log.all (fun e => e.2)

theorem set_of_length_le {α : Type} (l : List α) (i : Nat) (a : α) (h : l.length ≤ i) :
    l.set i a = l := by
  induction l generalizing i with
  | nil => simp
  | cons x rest ih =>
    cases i with
    | zero => simp at h
    | succ i => simpa using ih i (by simpa using h)

/-! ### CHAIN: case lemmas for `chain_insert` -/

theorem chain_insert_case_overwrite {t : hashtable_chain_spinlock_t K V} {k : K} {v : V}
    {s2 : List (Slot K V)}
    (h : overwriteSlots (chain_bucket t (chain_bucket_index t k)).slots k v = some s2) :
    chain_insert t k v =
      (true, { t with
                buckets := t.buckets.set (chain_bucket_index t k)
                  ⟨s2, (chain_bucket t (chain_bucket_index t k)).extCount⟩ }) := by
  unfold chain_insert
  simp [h]

theorem chain_insert_case_fill {t : hashtable_chain_spinlock_t K V} {k : K} {v : V}
    {s2 : List (Slot K V)}
    (hov : overwriteSlots (chain_bucket t (chain_bucket_index t k)).slots k v = none)
    (h : fillSlots (chain_bucket t (chain_bucket_index t k)).slots k v = some s2) :
    chain_insert t k v =
      (true, { t with
                buckets := t.buckets.set (chain_bucket_index t k)
                  ⟨s2, (chain_bucket t (chain_bucket_index t k)).extCount⟩,
                pairs := t.pairs + 1 }) := by
  unfold chain_insert
  simp [hov, h]

theorem chain_insert_case_extend {t : hashtable_chain_spinlock_t K V} {k : K} {v : V}
    (hov : overwriteSlots (chain_bucket t (chain_bucket_index t k)).slots k v = none)
    (hfill : fillSlots (chain_bucket t (chain_bucket_index t k)).slots k v = none)
    (hpool : t.poolUsed < t.E) :
    chain_insert t k v =
      (true, { t with
                buckets := t.buckets.set (chain_bucket_index t k)
                  ⟨(chain_bucket t (chain_bucket_index t k)).slots ++
                      (some (k, v) :: List.replicate (t.c2 - 1) none),
                   (chain_bucket t (chain_bucket_index t k)).extCount + 1⟩,
                poolUsed := t.poolUsed + 1,
                pairs := t.pairs + 1,
                extendedChunksCount := t.extendedChunksCount + 1,
                longestChain := max t.longestChain
                  ((chain_bucket t (chain_bucket_index t k)).extCount + 2) }) := by
  unfold chain_insert
  simp [hov, hfill, hpool]

theorem chain_insert_case_fail {t : hashtable_chain_spinlock_t K V} {k : K} {v : V}
    (hov : overwriteSlots (chain_bucket t (chain_bucket_index t k)).slots k v = none)
    (hfill : fillSlots (chain_bucket t (chain_bucket_index t k)).slots k v = none)
    (hpool : ¬ t.poolUsed < t.E) :
    chain_insert t k v = (false, { t with insertFailed := t.insertFailed + 1 }) := by
  unfold chain_insert
  simp [hov, hfill, hpool]

/-- Parameters, hash function and bucket-list length are untouched by
`insert`. -/
theorem chain_insert_preserves (t : hashtable_chain_spinlock_t K V) (k : K) (v : V) :
    (chain_insert t k v).2.P = t.P ∧ (chain_insert t k v).2.E = t.E ∧
    (chain_insert t k v).2.c1 = t.c1 ∧ (chain_insert t k v).2.c2 = t.c2 ∧
    (chain_insert t k v).2.hashFn = t.hashFn ∧
    (chain_insert t k v).2.buckets.length = t.buckets.length := by
  cases hov : overwriteSlots (chain_bucket t (chain_bucket_index t k)).slots k v with
  | some s2 => simp [chain_insert_case_overwrite hov]
  | none =>
    cases hfill : fillSlots (chain_bucket t (chain_bucket_index t k)).slots k v with
    | some s2 => simp [chain_insert_case_fill hov hfill]
    | none =>
      by_cases hpool : t.poolUsed < t.E
      · simp [chain_insert_case_extend hov hfill hpool]
      · simp [chain_insert_case_fail hov hfill hpool]

/-- A failed CHAIN insert changes nothing but the `insertFailed` counter
(spec 4.1, step 5). -/
theorem chain_insert_false_eq {t : hashtable_chain_spinlock_t K V} {k : K} {v : V}
    (h : (chain_insert t k v).1 = false) :
    (chain_insert t k v).2 = { t with insertFailed := t.insertFailed + 1 } := by
  cases hov : overwriteSlots (chain_bucket t (chain_bucket_index t k)).slots k v with
  | some s2 => simp [chain_insert_case_overwrite hov] at h
  | none =>
    cases hfill : fillSlots (chain_bucket t (chain_bucket_index t k)).slots k v with
    | some s2 => simp [chain_insert_case_fill hov hfill] at h
    | none =>
      by_cases hpool : t.poolUsed < t.E
      · simp [chain_insert_case_extend hov hfill hpool] at h
      · simp [chain_insert_case_fail hov hfill hpool]

/-- A successful CHAIN insert does not touch `insertFailed`. -/
theorem chain_insert_true_insertFailed {t : hashtable_chain_spinlock_t K V} {k : K} {v : V}
    (h : (chain_insert t k v).1 = true) :
    (chain_insert t k v).2.insertFailed = t.insertFailed := by
  cases hov : overwriteSlots (chain_bucket t (chain_bucket_index t k)).slots k v with
  | some s2 => simp [chain_insert_case_overwrite hov]
  | none =>
    cases hfill : fillSlots (chain_bucket t (chain_bucket_index t k)).slots k v with
    | some s2 => simp [chain_insert_case_fill hov hfill]
    | none =>
      by_cases hpool : t.poolUsed < t.E
      · simp [chain_insert_case_extend hov hfill hpool]
      · simp [chain_insert_case_fail hov hfill hpool] at h

/-- Lookup of `k2` only depends on the hash function, `P` and the bucket
list. -/
theorem chain_lookup_value_eq (t2 t : hashtable_chain_spinlock_t K V) (k2 : K)
    (hh : t2.hashFn = t.hashFn) (hp : t2.P = t.P) :
    chain_lookup_value t2 k2
      = lookupSlots (t2.buckets.getD (chain_bucket_index t k2) ⟨[], 0⟩).slots k2 := by
  unfold chain_lookup_value chain_bucket chain_bucket_index
  rw [hh, hp]

/-- Round-trip step: a successful insert of `(k, v)` makes `lookup k`
return `v` (spec 8, invariant 6). -/
theorem chain_insert_true_lookup {t : hashtable_chain_spinlock_t K V} {k : K} {v : V}
    (hlen : t.buckets.length = t.P) (hP : 0 < t.P)
    (h : (chain_insert t k v).1 = true) :
    chain_lookup_value (chain_insert t k v).2 k = some v := by
  have hbi : chain_bucket_index t k < t.buckets.length := by
    rw [hlen]; exact Nat.mod_lt _ hP
  cases hov : overwriteSlots (chain_bucket t (chain_bucket_index t k)).slots k v with
  | some s2 =>
    have hstep := chain_insert_case_overwrite hov
    have hb : (chain_insert t k v).2.buckets = t.buckets.set (chain_bucket_index t k)
        ⟨s2, (chain_bucket t (chain_bucket_index t k)).extCount⟩ := by rw [hstep]
    have hh : (chain_insert t k v).2.hashFn = t.hashFn := by rw [hstep]
    have hp : (chain_insert t k v).2.P = t.P := by rw [hstep]
    rw [chain_lookup_value_eq _ t _ hh hp, hb, getD_set_self _ _ _ _ hbi]
    exact overwriteSlots_some_lookup hov
  | none =>
    have hmiss : lookupSlots (chain_bucket t (chain_bucket_index t k)).slots k = none :=
      (overwriteSlots_eq_none_iff _ _ _).mp hov
    cases hfill : fillSlots (chain_bucket t (chain_bucket_index t k)).slots k v with
    | some s2 =>
      have hstep := chain_insert_case_fill hov hfill
      have hb : (chain_insert t k v).2.buckets = t.buckets.set (chain_bucket_index t k)
          ⟨s2, (chain_bucket t (chain_bucket_index t k)).extCount⟩ := by rw [hstep]
      have hh : (chain_insert t k v).2.hashFn = t.hashFn := by rw [hstep]
      have hp : (chain_insert t k v).2.P = t.P := by rw [hstep]
      rw [chain_lookup_value_eq _ t _ hh hp, hb, getD_set_self _ _ _ _ hbi]
      exact fillSlots_some_lookup hfill hmiss
    | none =>
      by_cases hpool : t.poolUsed < t.E
      · have hstep := chain_insert_case_extend hov hfill hpool
        have hb : (chain_insert t k v).2.buckets = t.buckets.set (chain_bucket_index t k)
            ⟨(chain_bucket t (chain_bucket_index t k)).slots ++
                (some (k, v) :: List.replicate (t.c2 - 1) none),
             (chain_bucket t (chain_bucket_index t k)).extCount + 1⟩ := by rw [hstep]
        have hh : (chain_insert t k v).2.hashFn = t.hashFn := by rw [hstep]
        have hp : (chain_insert t k v).2.P = t.P := by rw [hstep]
        rw [chain_lookup_value_eq _ t _ hh hp, hb, getD_set_self _ _ _ _ hbi]
        show lookupSlots ((chain_bucket t (chain_bucket_index t k)).slots ++
          (some (k, v) :: List.replicate (t.c2 - 1) none)) k = some v
        rw [lookupSlots_append_none _ hmiss]
        simp [lookupSlots]
      · simp [chain_insert_case_fail hov hfill hpool] at h

/-- Inserting `k` does not disturb the lookup of any other key `k2`
(spec 3, invariant: a lookup never returns a slot carrying a different
key; overwrites and placements only touch slots that are empty or hold
`k`). -/
theorem chain_insert_lookup_other (t : hashtable_chain_spinlock_t K V) (k : K) (v : V)
    {k2 : K} (hk : k2 ≠ k) :
    chain_lookup_value (chain_insert t k v).2 k2 = chain_lookup_value t k2 := by
  have hnewchunk : lookupSlots (some (k, v) :: List.replicate (t.c2 - 1) none) k2 = none := by
    have hkk : ¬(k = k2) := fun hc => hk hc.symm
    simp [lookupSlots, hkk, lookupSlots_replicate_none]
  -- generic step: an update of bucket `chain_bucket_index t k` with the same
  -- view for `k2` does not change the lookup of `k2`
  have hsplit : ∀ b2 : bucket_t K V,
      lookupSlots b2.slots k2 = lookupSlots (chain_bucket t (chain_bucket_index t k)).slots k2 →
      lookupSlots ((t.buckets.set (chain_bucket_index t k) b2).getD
          (chain_bucket_index t k2) ⟨[], 0⟩).slots k2
        = chain_lookup_value t k2 := by
    intro b2 hb2
    by_cases hrange : t.buckets.length ≤ chain_bucket_index t k
    · rw [set_of_length_le _ _ _ hrange]
      rfl
    · have hbi : chain_bucket_index t k < t.buckets.length := Nat.lt_of_not_le hrange
      by_cases heq : chain_bucket_index t k2 = chain_bucket_index t k
      · rw [heq, getD_set_self _ _ _ _ hbi, hb2]
        show lookupSlots (chain_bucket t (chain_bucket_index t k)).slots k2
          = chain_lookup_value t k2
        unfold chain_lookup_value
        rw [heq]
      · rw [getD_set_ne _ _ _ _ _ (fun hc => heq hc.symm)]
        rfl
  cases hov : overwriteSlots (chain_bucket t (chain_bucket_index t k)).slots k v with
  | some s2 =>
    have hstep := chain_insert_case_overwrite hov
    have hb : (chain_insert t k v).2.buckets = t.buckets.set (chain_bucket_index t k)
        ⟨s2, (chain_bucket t (chain_bucket_index t k)).extCount⟩ := by rw [hstep]
    have hh : (chain_insert t k v).2.hashFn = t.hashFn := by rw [hstep]
    have hp : (chain_insert t k v).2.P = t.P := by rw [hstep]
    rw [chain_lookup_value_eq _ t _ hh hp, hb]
    refine hsplit _ ?_
    rw [lookupSlots_eq_firstSome, lookupSlots_eq_firstSome, overwriteSlots_some_view hov k2 hk]
  | none =>
    cases hfill : fillSlots (chain_bucket t (chain_bucket_index t k)).slots k v with
    | some s2 =>
      have hstep := chain_insert_case_fill hov hfill
      have hb : (chain_insert t k v).2.buckets = t.buckets.set (chain_bucket_index t k)
          ⟨s2, (chain_bucket t (chain_bucket_index t k)).extCount⟩ := by rw [hstep]
      have hh : (chain_insert t k v).2.hashFn = t.hashFn := by rw [hstep]
      have hp : (chain_insert t k v).2.P = t.P := by rw [hstep]
      rw [chain_lookup_value_eq _ t _ hh hp, hb]
      refine hsplit _ ?_
      rw [lookupSlots_eq_firstSome, lookupSlots_eq_firstSome, fillSlots_some_view hfill k2 hk]
    | none =>
      by_cases hpool : t.poolUsed < t.E
      · have hstep := chain_insert_case_extend hov hfill hpool
        have hb : (chain_insert t k v).2.buckets = t.buckets.set (chain_bucket_index t k)
            ⟨(chain_bucket t (chain_bucket_index t k)).slots ++
                (some (k, v) :: List.replicate (t.c2 - 1) none),
             (chain_bucket t (chain_bucket_index t k)).extCount + 1⟩ := by rw [hstep]
        have hh : (chain_insert t k v).2.hashFn = t.hashFn := by rw [hstep]
        have hp : (chain_insert t k v).2.P = t.P := by rw [hstep]
        rw [chain_lookup_value_eq _ t _ hh hp, hb]
        refine hsplit _ ?_
        show lookupSlots ((chain_bucket t (chain_bucket_index t k)).slots ++
          (some (k, v) :: List.replicate (t.c2 - 1) none)) k2
          = lookupSlots (chain_bucket t (chain_bucket_index t k)).slots k2
        cases hl : lookupSlots (chain_bucket t (chain_bucket_index t k)).slots k2 with
        | some w => exact lookupSlots_append_some _ hl
        | none => rw [lookupSlots_append_none _ hl, hnewchunk]
      · have hstep := chain_insert_case_fail hov hfill hpool
        have hb : (chain_insert t k v).2.buckets = t.buckets := by rw [hstep]
        have hh : (chain_insert t k v).2.hashFn = t.hashFn := by rw [hstep]
        have hp : (chain_insert t k v).2.P = t.P := by rw [hstep]
        rw [chain_lookup_value_eq _ t _ hh hp, hb]
        rfl

/-! ### CHAIN: whole-run lemmas -/

/-- Parameters and bucket-list length are invariant along a run. -/
theorem chain_run_params (t : hashtable_chain_spinlock_t K V) (ops : List (K × V)) :
    (chain_run t ops).P = t.P ∧ (chain_run t ops).E = t.E ∧
    (chain_run t ops).c1 = t.c1 ∧ (chain_run t ops).c2 = t.c2 ∧
    (chain_run t ops).hashFn = t.hashFn ∧
    (chain_run t ops).buckets.length = t.buckets.length := by
  induction ops generalizing t with
  | nil => exact ⟨rfl, rfl, rfl, rfl, rfl, rfl⟩
  | cons op ops ih =>
    obtain ⟨k, v⟩ := op
    have hstep := chain_insert_preserves t k v
    have htail := ih (chain_insert t k v).2
    simp only [chain_run]
    exact ⟨htail.1.trans hstep.1, htail.2.1.trans hstep.2.1,
      htail.2.2.1.trans hstep.2.2.1, htail.2.2.2.1.trans hstep.2.2.2.1,
      htail.2.2.2.2.1.trans hstep.2.2.2.2.1, htail.2.2.2.2.2.trans hstep.2.2.2.2.2⟩

/-- Entries of the run log are exactly the operations of the run. -/
theorem chain_run_log_mem {t : hashtable_chain_spinlock_t K V} {ops : List (K × V)}
    {e : (K × V) × Bool} (h : e ∈ chain_run_log t ops) : e.1 ∈ ops := by
  induction ops generalizing t with
  | nil => simp [chain_run_log] at h
  | cons op ops ih =>
    obtain ⟨k, v⟩ := op
    simp only [chain_run_log, List.mem_cons] at h
    rcases h with h | h
    · subst h; simp
    · exact List.mem_cons_of_mem _ (ih h)

/-- A failed insert does not change the lookup of any key. -/
theorem chain_insert_false_lookup {t : hashtable_chain_spinlock_t K V} {k1 : K} {v1 : V}
    (h : (chain_insert t k1 v1).1 = false) (k : K) :
    chain_lookup_value (chain_insert t k1 v1).2 k = chain_lookup_value t k := by
  rw [chain_insert_false_eq h]
  rfl

/-- If no insert of the run successfully targeted `k`, the lookup of `k`
is untouched by the whole run. -/
theorem chain_run_preserve {t : hashtable_chain_spinlock_t K V} {ops : List (K × V)} {k : K}
    (h : ∀ e ∈ chain_run_log t ops, ¬(e.2 = true ∧ e.1.1 = k)) :
    chain_lookup_value (chain_run t ops) k = chain_lookup_value t k := by
  induction ops generalizing t with
  | nil => rfl
  | cons op ops ih =>
    obtain ⟨k1, v1⟩ := op
    have hhead := h ((k1, v1), (chain_insert t k1 v1).1) (by simp [chain_run_log])
    have htail : ∀ e ∈ chain_run_log (chain_insert t k1 v1).2 ops,
        ¬(e.2 = true ∧ e.1.1 = k) := by
      intro e he
      exact h e (by simp [chain_run_log, he])
    simp only [chain_run]
    rw [ih htail]
    by_cases hk : k1 = k
    · cases hres : (chain_insert t k1 v1).1 with
      | true => exact absurd ⟨hres, hk⟩ hhead
      | false => exact chain_insert_false_lookup hres k
    · exact chain_insert_lookup_other t k1 v1 (fun hc => hk hc.symm)

/-- If none of the remaining operations mentions key `k` at all, the
lookup of `k` is untouched. -/
theorem chain_run_preserve_of_not_mem {t : hashtable_chain_spinlock_t K V}
    {ops : List (K × V)} {k : K} (h : ∀ kv ∈ ops, kv.1 ≠ k) :
    chain_lookup_value (chain_run t ops) k = chain_lookup_value t k := by
  refine chain_run_preserve ?_
  intro e he hc
  exact h e.1 (chain_run_log_mem he) hc.2

/-- Last-write-wins round trip over an arbitrary run (spec 8, invariant 1):
if the last successful insert of key `k` wrote `v`, the final lookup of
`k` returns `v`. -/
theorem chain_run_lastInserted {t : hashtable_chain_spinlock_t K V} {ops : List (K × V)}
    {k : K} {v : V} (hlen : t.buckets.length = t.P) (hP : 0 < t.P)
    (h : lastInserted (chain_run_log t ops) k = some v) :
    chain_lookup_value (chain_run t ops) k = some v := by
  induction ops generalizing t with
  | nil => simp [chain_run_log, lastInserted] at h
  | cons op ops ih =>
    obtain ⟨k1, v1⟩ := op
    have hpres := chain_insert_preserves t k1 v1
    have hlen2 : (chain_insert t k1 v1).2.buckets.length = (chain_insert t k1 v1).2.P := by
      rw [hpres.2.2.2.2.2, hpres.1, hlen]
    have hP2 : 0 < (chain_insert t k1 v1).2.P := by rw [hpres.1]; exact hP
    simp only [chain_run, chain_run_log] at h ⊢
    unfold lastInserted at h
    rw [List.reverse_cons] at h
    cases hfind : (chain_run_log (chain_insert t k1 v1).2 ops).reverse.find?
        (fun e => e.2 && decide (e.1.1 = k)) with
    | some e2 =>
      rw [find?_append_of_some _ _ _ _ hfind] at h
      refine ih hlen2 hP2 ?_
      unfold lastInserted
      rw [hfind]
      simpa using h
    | none =>
      rw [find?_append_of_none _ _ _ hfind] at h
      have hnone : ∀ e ∈ chain_run_log (chain_insert t k1 v1).2 ops,
          ¬(e.2 = true ∧ e.1.1 = k) := by
        intro e he hc
        have := List.find?_eq_none.mp hfind e (List.mem_reverse.mpr he)
        simp [hc.1, hc.2] at this
      rw [chain_run_preserve hnone]
      cases hres : (chain_insert t k1 v1).1 with
      | false =>
        rw [hres] at h
        simp [List.find?] at h
      | true =>
        rw [hres] at h
        by_cases hk : k1 = k
        · subst hk
          simp [List.find?] at h
          rw [← h]
          exact chain_insert_true_lookup hlen hP hres
        · simp [List.find?, hk] at h

/-- All-distinct fresh inserts: after a run whose keys are pairwise
distinct and all of whose inserts succeeded, every operation's key looks
up to its value. -/
theorem chain_run_fresh_lookup {t : hashtable_chain_spinlock_t K V} {ops : List (K × V)}
    (hlen : t.buckets.length = t.P) (hP : 0 < t.P)
    (hsucc : ∀ e ∈ chain_run_log t ops, e.2 = true)
    (hnodup : (ops.map Prod.fst).Nodup) :
    ∀ kv ∈ ops, chain_lookup_value (chain_run t ops) kv.1 = some kv.2 := by
  induction ops generalizing t with
  | nil => simp
  | cons op ops ih =>
    obtain ⟨k1, v1⟩ := op
    have hpres := chain_insert_preserves t k1 v1
    have hlen2 : (chain_insert t k1 v1).2.buckets.length = (chain_insert t k1 v1).2.P := by
      rw [hpres.2.2.2.2.2, hpres.1, hlen]
    have hP2 : 0 < (chain_insert t k1 v1).2.P := by rw [hpres.1]; exact hP
    have hres : (chain_insert t k1 v1).1 = true :=
      hsucc ((k1, v1), (chain_insert t k1 v1).1) (by simp [chain_run_log])
    have hsucc2 : ∀ e ∈ chain_run_log (chain_insert t k1 v1).2 ops, e.2 = true := by
      intro e he
      exact hsucc e (by simp [chain_run_log, he])
    simp only [List.map_cons, List.nodup_cons] at hnodup
    intro kv hkv
    rcases List.mem_cons.mp hkv with hkv | hkv
    · subst hkv
      simp only [chain_run]
      have hne : ∀ kv2 ∈ ops, kv2.1 ≠ k1 := by
        intro kv2 hkv2 hc
        exact hnodup.1 (hc ▸ List.mem_map_of_mem Prod.fst hkv2)
      rw [chain_run_preserve_of_not_mem hne]
      exact chain_insert_true_lookup hlen hP hres
    · simp only [chain_run]
      exact ih hlen2 hP2 hsucc2 hnodup.2 kv hkv

/-! ### CHAIN: occupancy, keys and statistics invariants -/

/-- Total number of occupied slots across all buckets. -/
def chain_totalOcc (t : hashtable_chain_spinlock_t K V) : Nat :=
  (t.buckets.map (fun b => occCount b.slots)).sum

/-- Total number of extended chunks linked into any chain. -/
def chain_totalExt (t : hashtable_chain_spinlock_t K V) : Nat :=
  (t.buckets.map (fun b => b.extCount)).sum

/-- All keys stored in the table, bucket by bucket. -/
def chain_all_keys (t : hashtable_chain_spinlock_t K V) : List K :=
  (t.buckets.map (fun b => keysOf b.slots)).flatten

theorem count_join {α : Type} [DecidableEq α] (L : List (List α)) (a : α) :
    L.flatten.count a = (L.map (fun l => l.count a)).sum := by
  induction L with
  | nil => simp
  | cons l rest ih => simp [List.count_append, ih]

/-- A lookup hit forces the bucket index into range (an out-of-range index
would yield the empty default bucket). -/
theorem chain_present_in_range {t : hashtable_chain_spinlock_t K V} {k : K} {w : V}
    (hpresent : chain_lookup_value t k = some w) :
    chain_bucket_index t k < t.buckets.length := by
  by_contra hc
  have hge : t.buckets.length ≤ chain_bucket_index t k := Nat.le_of_not_lt hc
  unfold chain_lookup_value chain_bucket at hpresent
  rw [getD_eq_of_length_le _ _ _ hge] at hpresent
  simp [lookupSlots] at hpresent

/-- Duplicate insert (spec 4.1, tie-breaks): a key that is present is
overwritten in place -- the insert succeeds, `pairs`, the pool and the
extended-chunk statistics are untouched, and the total occupancy does not
change. -/
theorem chain_insert_present_stats {t : hashtable_chain_spinlock_t K V} {k : K} {v : V}
    {w : V} (hpresent : chain_lookup_value t k = some w) :
    (chain_insert t k v).1 = true ∧
    (chain_insert t k v).2.pairs = t.pairs ∧
    (chain_insert t k v).2.extendedChunksCount = t.extendedChunksCount ∧
    (chain_insert t k v).2.poolUsed = t.poolUsed ∧
    chain_totalOcc (chain_insert t k v).2 = chain_totalOcc t := by
  have hbi : chain_bucket_index t k < t.buckets.length := chain_present_in_range hpresent
  cases hov : overwriteSlots (chain_bucket t (chain_bucket_index t k)).slots k v with
  | none =>
    have := (overwriteSlots_eq_none_iff _ _ _).mp hov
    rw [chain_lookup_value] at hpresent
    rw [this] at hpresent
    cases hpresent
  | some s2 =>
    have hstep := chain_insert_case_overwrite hov
    refine ⟨by rw [hstep], by rw [hstep], by rw [hstep], by rw [hstep], ?_⟩
    have hb : (chain_insert t k v).2.buckets = t.buckets.set (chain_bucket_index t k)
        ⟨s2, (chain_bucket t (chain_bucket_index t k)).extCount⟩ := by rw [hstep]
    unfold chain_totalOcc
    rw [hb]
    have hsum := sum_map_set (fun b => occCount b.slots) t.buckets (chain_bucket_index t k)
      ⟨s2, (chain_bucket t (chain_bucket_index t k)).extCount⟩ ⟨[], 0⟩ hbi
    have hocc : occCount s2 = occCount (chain_bucket t (chain_bucket_index t k)).slots :=
      overwriteSlots_some_occ hov
    unfold chain_bucket at hocc
    simp only at hsum
    omega

/-- New-key insert (spec 4.1): on success for an absent key, `pairs` and
the total occupancy both grow by exactly one -- a previously empty slot
became occupied. -/
theorem chain_insert_absent_stats {t : hashtable_chain_spinlock_t K V} {k : K} {v : V}
    (hlen : t.buckets.length = t.P) (hP : 0 < t.P)
    (habsent : chain_lookup_value t k = none) (hsucc : (chain_insert t k v).1 = true) :
    (chain_insert t k v).2.pairs = t.pairs + 1 ∧
    chain_totalOcc (chain_insert t k v).2 = chain_totalOcc t + 1 := by
  have hbi : chain_bucket_index t k < t.buckets.length := by
    rw [hlen]; exact Nat.mod_lt _ hP
  cases hov : overwriteSlots (chain_bucket t (chain_bucket_index t k)).slots k v with
  | some s2 =>
    exfalso
    have hl := overwriteSlots_some_lookup hov
    have : lookupSlots (chain_bucket t (chain_bucket_index t k)).slots k = none := habsent
    rcases hcase : lookupSlots (chain_bucket t (chain_bucket_index t k)).slots k with _ | w
    · rw [(overwriteSlots_eq_none_iff _ _ _).mpr hcase] at hov
      cases hov
    · rw [chain_lookup_value] at habsent
      rw [hcase] at habsent
      cases habsent
  | none =>
    cases hfill : fillSlots (chain_bucket t (chain_bucket_index t k)).slots k v with
    | some s2 =>
      have hstep := chain_insert_case_fill hov hfill
      refine ⟨by rw [hstep], ?_⟩
      have hb : (chain_insert t k v).2.buckets = t.buckets.set (chain_bucket_index t k)
          ⟨s2, (chain_bucket t (chain_bucket_index t k)).extCount⟩ := by rw [hstep]
      unfold chain_totalOcc
      rw [hb]
      have hsum := sum_map_set (fun b => occCount b.slots) t.buckets (chain_bucket_index t k)
        ⟨s2, (chain_bucket t (chain_bucket_index t k)).extCount⟩ ⟨[], 0⟩ hbi
      have hocc : occCount s2 = occCount (chain_bucket t (chain_bucket_index t k)).slots + 1 :=
        fillSlots_some_occ hfill
      unfold chain_bucket at hocc
      simp only at hsum
      omega
    | none =>
      by_cases hpool : t.poolUsed < t.E
      · have hstep := chain_insert_case_extend hov hfill hpool
        refine ⟨by rw [hstep], ?_⟩
        have hb : (chain_insert t k v).2.buckets = t.buckets.set (chain_bucket_index t k)
            ⟨(chain_bucket t (chain_bucket_index t k)).slots ++
                (some (k, v) :: List.replicate (t.c2 - 1) none),
             (chain_bucket t (chain_bucket_index t k)).extCount + 1⟩ := by rw [hstep]
        unfold chain_totalOcc
        rw [hb]
        have hsum := sum_map_set (fun b => occCount b.slots) t.buckets (chain_bucket_index t k)
          ⟨(chain_bucket t (chain_bucket_index t k)).slots ++
              (some (k, v) :: List.replicate (t.c2 - 1) none),
           (chain_bucket t (chain_bucket_index t k)).extCount + 1⟩ ⟨[], 0⟩ hbi
        have hocc : occCount ((chain_bucket t (chain_bucket_index t k)).slots ++
            (some (k, v) :: List.replicate (t.c2 - 1) none))
            = occCount (chain_bucket t (chain_bucket_index t k)).slots + 1 := by
          rw [occCount_append]
          simp [occCount, List.countP_cons, occCount_replicate_none]
        unfold chain_bucket at hocc hsum ⊢
        simp only at hsum
        omega
      · simp [chain_insert_case_fail hov hfill hpool] at hsucc

/-! ### CHAIN: the reachable-state invariant -/

theorem getD_of_lt {α : Type} (l : List α) (i : Nat) (d : α) (h : i < l.length) :
    l.getD i d = l[i] := by
  rw [List.getD, List.get?_eq_getElem?, List.getElem?_eq_getElem h]
  rfl

theorem getD_mem {α : Type} (l : List α) (i : Nat) (d : α) (h : i < l.length) :
    l.getD i d ∈ l := by
  rw [getD_of_lt _ _ _ h]
  exact List.getElem_mem h

/-- Well-formedness of a CHAIN table state (spec 3, Invariants): the
statistics mirror the stored data, every stored key sits in its hash
bucket, no key is stored twice, and every bucket with `e ≥ 1` extended
chunks stores at least `c1 + c2·(e-1) + 1` pairs (extended chunks are
allocated only when the whole chain is full, and slots never empty out). -/
structure chain_wf (t : hashtable_chain_spinlock_t K V) : Prop where
  hlen : t.buckets.length = t.P
  hP : 0 < t.P
  hc2 : 0 < t.c2
  hslots : ∀ b ∈ t.buckets, b.slots.length = t.c1 + t.c2 * b.extCount
  hpairs : t.pairs = chain_totalOcc t
  hext : t.extendedChunksCount = chain_totalExt t
  hpool : t.poolUsed = chain_totalExt t
  hpoolE : t.poolUsed ≤ t.E
  hmin : ∀ b ∈ t.buckets, 0 < b.extCount →
      t.c1 + t.c2 * (b.extCount - 1) + 1 ≤ occCount b.slots
  hcount : ∀ a : K, (chain_all_keys t).count a ≤ 1
  hloc : ∀ bi < t.buckets.length, ∀ a : K,
      a ∈ keysOf ((t.buckets.getD bi ⟨[], 0⟩).slots) → chain_bucket_index t a = bi

/-- Key-count bookkeeping for a single-bucket update. -/
theorem chain_count_set (t : hashtable_chain_spinlock_t K V) (bi : Nat) (b2 : bucket_t K V)
    (hbi : bi < t.buckets.length) (a : K) :
    (((t.buckets.set bi b2).map (fun b => keysOf b.slots)).flatten).count a
        + (keysOf (t.buckets.getD bi ⟨[], 0⟩).slots).count a
      = (chain_all_keys t).count a + (keysOf b2.slots).count a := by
  unfold chain_all_keys
  rw [count_join, count_join, List.map_map, List.map_map]
  have := sum_map_set (fun b => (keysOf b.slots).count a) t.buckets bi b2 ⟨[], 0⟩ hbi
  simpa [Function.comp] using this

/-- The freshly initialised CHAIN table is well formed. -/
theorem chain_wf_init (P E c1 c2 : Nat) (hashFn : K → Nat) (hP : 0 < P) (hc2 : 0 < c2) :
    chain_wf (chain_init P E c1 c2 hashFn (V := V)) := by
  have hmem : ∀ b ∈ (chain_init P E c1 c2 hashFn (V := V)).buckets,
      b = (⟨List.replicate c1 none, 0⟩ : bucket_t K V) := by
    intro b hb
    exact List.eq_of_mem_replicate hb
  refine ⟨by simp [chain_init], hP, hc2, ?_, ?_, ?_, ?_, ?_, ?_, ?_, ?_⟩
  · intro b hb
    rw [hmem b hb]
    simp [chain_init]
  · show (0 : Nat) = chain_totalOcc (chain_init P E c1 c2 hashFn)
    unfold chain_totalOcc chain_init
    rw [eq_comm]
    apply list_sum_zero_of_all_zero
    intro x hx
    rcases List.mem_map.mp hx with ⟨b, hb, rfl⟩
    rw [List.eq_of_mem_replicate hb]
    simp [occCount_replicate_none]
  · show (0 : Nat) = chain_totalExt (chain_init P E c1 c2 hashFn)
    unfold chain_totalExt chain_init
    rw [eq_comm]
    apply list_sum_zero_of_all_zero
    intro x hx
    rcases List.mem_map.mp hx with ⟨b, hb, rfl⟩
    rw [List.eq_of_mem_replicate hb]
  · show (0 : Nat) = chain_totalExt (chain_init P E c1 c2 hashFn)
    unfold chain_totalExt chain_init
    rw [eq_comm]
    apply list_sum_zero_of_all_zero
    intro x hx
    rcases List.mem_map.mp hx with ⟨b, hb, rfl⟩
    rw [List.eq_of_mem_replicate hb]
  · exact Nat.zero_le E
  · intro b hb
    rw [hmem b hb]
    simp
  · intro a
    unfold chain_all_keys chain_init
    rw [count_join]
    have hz : ((List.map (fun b => keysOf b.slots)
        (List.replicate P (⟨List.replicate c1 none, 0⟩ : bucket_t K V))).map
          (fun l => l.count a)).sum = 0 := by
      apply list_sum_zero_of_all_zero
      intro x hx
      rcases List.mem_map.mp hx with ⟨l, hl, rfl⟩
      rcases List.mem_map.mp hl with ⟨b, hb, rfl⟩
      rw [List.eq_of_mem_replicate hb]
      simp [keysOf_replicate_none]
    rw [hz]
    exact Nat.zero_le 1
  · intro bi hbi a ha
    exfalso
    rw [getD_of_lt _ _ _ hbi] at ha
    simp [chain_init, keysOf_replicate_none] at ha

/-- No stored key escapes its hash bucket, so a key absent from its own
bucket is absent from the whole table. -/
theorem chain_absent_count_zero {t : hashtable_chain_spinlock_t K V} (hwf : chain_wf t)
    {k : K}
    (habs : k ∉ keysOf ((t.buckets.getD (chain_bucket_index t k) ⟨[], 0⟩).slots)) :
    (chain_all_keys t).count k = 0 := by
  unfold chain_all_keys
  rw [count_join]
  apply list_sum_zero_of_all_zero
  intro x hx
  rcases List.mem_map.mp hx with ⟨l, hl, rfl⟩
  rcases List.mem_map.mp hl with ⟨b, hb, rfl⟩
  rw [List.count_eq_zero]
  intro hmem
  rcases List.getElem_of_mem hb with ⟨j, hj, hjb⟩
  have hjd : t.buckets.getD j ⟨[], 0⟩ = b := by rw [getD_of_lt _ _ _ hj, hjb]
  have hidx : chain_bucket_index t k = j := hwf.hloc j hj k (by rw [hjd]; exact hmem)
  apply habs
  rw [hidx, hjd]
  exact hmem

/-- `insert` preserves well-formedness. -/
theorem chain_wf_insert {t : hashtable_chain_spinlock_t K V} (hwf : chain_wf t)
    (k : K) (v : V) : chain_wf (chain_insert t k v).2 := by
  have hbi : chain_bucket_index t k < t.buckets.length := by
    rw [hwf.hlen]; exact Nat.mod_lt _ hwf.hP
  have hbmem : chain_bucket t (chain_bucket_index t k) ∈ t.buckets :=
    getD_mem _ _ _ hbi
  have hbslots := hwf.hslots _ hbmem
  cases hov : overwriteSlots (chain_bucket t (chain_bucket_index t k)).slots k v with
  | some s2 =>
    have ht2 : (chain_insert t k v).2 = { t with
        buckets := t.buckets.set (chain_bucket_index t k)
          ⟨s2, (chain_bucket t (chain_bucket_index t k)).extCount⟩ } := by
      rw [chain_insert_case_overwrite hov]
    rw [ht2]
    have hocc := overwriteSlots_some_occ hov
    have hkeys := overwriteSlots_some_keys hov
    have hlength := overwriteSlots_some_length hov
    have hsumOcc := sum_map_set (fun b => occCount b.slots) t.buckets (chain_bucket_index t k)
      ⟨s2, (chain_bucket t (chain_bucket_index t k)).extCount⟩ ⟨[], 0⟩ hbi
    have hsumExt := sum_map_set (fun b => b.extCount) t.buckets (chain_bucket_index t k)
      ⟨s2, (chain_bucket t (chain_bucket_index t k)).extCount⟩ ⟨[], 0⟩ hbi
    refine ⟨by simpa using hwf.hlen, hwf.hP, hwf.hc2, ?_, ?_, ?_, ?_, hwf.hpoolE, ?_, ?_, ?_⟩
    · intro b hb
      simp only at hb
      rcases List.mem_or_eq_of_mem_set hb with hb | hb
      · exact hwf.hslots b hb
      · subst hb
        simpa [hlength] using hbslots
    · show t.pairs = chain_totalOcc _
      have hp := hwf.hpairs
      unfold chain_totalOcc chain_bucket at *
      simp only at hsumOcc ⊢
      omega
    · show t.extendedChunksCount = chain_totalExt _
      have hp := hwf.hext
      unfold chain_totalExt chain_bucket at *
      simp only at hsumExt ⊢
      omega
    · show t.poolUsed = chain_totalExt _
      have hp := hwf.hpool
      unfold chain_totalExt chain_bucket at *
      simp only at hsumExt ⊢
      omega
    · intro b hb hpos
      simp only at hb
      rcases List.mem_or_eq_of_mem_set hb with hb | hb
      · exact hwf.hmin b hb hpos
      · subst hb
        simp only at hpos ⊢
        rw [hocc]
        exact hwf.hmin _ hbmem hpos
    · intro a
      unfold chain_all_keys
      simp only
      have hcs := chain_count_set t (chain_bucket_index t k)
        ⟨s2, (chain_bucket t (chain_bucket_index t k)).extCount⟩ hbi a
      have hsame : (keysOf s2).count a
          = (keysOf (t.buckets.getD (chain_bucket_index t k) ⟨[], 0⟩).slots).count a := by
        rw [hkeys]
        rfl
      have hc := hwf.hcount a
      simp only at hcs
      omega
    · intro bi2 hbi2 a ha
      simp only at hbi2 ha ⊢
      have hlen2 : bi2 < t.buckets.length := by simpa using hbi2
      show chain_bucket_index t a = bi2
      by_cases heq : bi2 = chain_bucket_index t k
      · subst heq
        rw [getD_set_self _ _ _ _ hbi] at ha
        have ha2 : a ∈ keysOf s2 := ha
        rw [hkeys] at ha2
        exact hwf.hloc _ hlen2 a ha2
      · rw [getD_set_ne _ _ _ _ _ (fun hc => heq hc.symm)] at ha
        exact hwf.hloc bi2 hlen2 a ha
  | none =>
    have hmiss : lookupSlots (chain_bucket t (chain_bucket_index t k)).slots k = none :=
      (overwriteSlots_eq_none_iff _ _ _).mp hov
    have habs : k ∉ keysOf ((t.buckets.getD (chain_bucket_index t k) ⟨[], 0⟩).slots) :=
      (lookupSlots_eq_none_iff_keys _ _).mp hmiss
    have hzero : (chain_all_keys t).count k = 0 := chain_absent_count_zero hwf habs
    cases hfill : fillSlots (chain_bucket t (chain_bucket_index t k)).slots k v with
    | some s2 =>
      have ht2 : (chain_insert t k v).2 = { t with
          buckets := t.buckets.set (chain_bucket_index t k)
            ⟨s2, (chain_bucket t (chain_bucket_index t k)).extCount⟩,
          pairs := t.pairs + 1 } := by
        rw [chain_insert_case_fill hov hfill]
      rw [ht2]
      have hocc := fillSlots_some_occ hfill
      have hperm := fillSlots_some_keys_perm hfill
      have hlength := fillSlots_some_length hfill
      have hsumOcc := sum_map_set (fun b => occCount b.slots) t.buckets (chain_bucket_index t k)
        ⟨s2, (chain_bucket t (chain_bucket_index t k)).extCount⟩ ⟨[], 0⟩ hbi
      have hsumExt := sum_map_set (fun b => b.extCount) t.buckets (chain_bucket_index t k)
        ⟨s2, (chain_bucket t (chain_bucket_index t k)).extCount⟩ ⟨[], 0⟩ hbi
      refine ⟨by simpa using hwf.hlen, hwf.hP, hwf.hc2, ?_, ?_, ?_, ?_, hwf.hpoolE, ?_, ?_, ?_⟩
      · intro b hb
        simp only at hb
        rcases List.mem_or_eq_of_mem_set hb with hb | hb
        · exact hwf.hslots b hb
        · subst hb
          simpa [hlength] using hbslots
      · show t.pairs + 1 = chain_totalOcc _
        have hp := hwf.hpairs
        unfold chain_totalOcc chain_bucket at *
        simp only at hsumOcc ⊢
        omega
      · show t.extendedChunksCount = chain_totalExt _
        have hp := hwf.hext
        unfold chain_totalExt chain_bucket at *
        simp only at hsumExt ⊢
        omega
      · show t.poolUsed = chain_totalExt _
        have hp := hwf.hpool
        unfold chain_totalExt chain_bucket at *
        simp only at hsumExt ⊢
        omega
      · intro b hb hpos
        simp only at hb
        rcases List.mem_or_eq_of_mem_set hb with hb | hb
        · exact hwf.hmin b hb hpos
        · subst hb
          simp only at hpos ⊢
          rw [hocc]
          have := hwf.hmin _ hbmem hpos
          omega
      · intro a
        unfold chain_all_keys
        simp only
        have hcs := chain_count_set t (chain_bucket_index t k)
          ⟨s2, (chain_bucket t (chain_bucket_index t k)).extCount⟩ hbi a
        simp only at hcs
        have hsw : keysOf (chain_bucket t (chain_bucket_index t k)).slots
            = keysOf (t.buckets.getD (chain_bucket_index t k) ⟨[], 0⟩).slots := rfl
        have hcnt2 : (keysOf s2).count a
            = (if a = k then 1 else 0)
              + (keysOf (t.buckets.getD (chain_bucket_index t k) ⟨[], 0⟩).slots).count a := by
          by_cases hak : a = k
          · subst hak
            rw [hperm.count_eq, hsw, List.count_cons_self, if_pos rfl]
            omega
          · rw [hperm.count_eq, hsw, List.count_cons_of_ne hak, if_neg hak]
            omega
        by_cases hak : a = k
        · rw [if_pos hak] at hcnt2
          have hz2 : (keysOf (t.buckets.getD (chain_bucket_index t k) ⟨[], 0⟩).slots).count a
              = 0 := by
            rw [hak]
            exact List.count_eq_zero.mpr habs
          rw [hak] at hcnt2 hcs ⊢
          rw [hak] at hz2
          omega
        · rw [if_neg hak] at hcnt2
          have := hwf.hcount a
          omega
      · intro bi2 hbi2 a ha
        simp only at hbi2 ha ⊢
        have hlen2 : bi2 < t.buckets.length := by simpa using hbi2
        show chain_bucket_index t a = bi2
        by_cases heq : bi2 = chain_bucket_index t k
        · subst heq
          rw [getD_set_self _ _ _ _ hbi] at ha
          have ha2 : a ∈ keysOf s2 := ha
          have := hperm.mem_iff.mp ha2
          rcases List.mem_cons.mp this with rfl | hmem
          · rfl
          · exact hwf.hloc _ hlen2 a hmem
        · rw [getD_set_ne _ _ _ _ _ (fun hc => heq hc.symm)] at ha
          exact hwf.hloc bi2 hlen2 a ha
    | none =>
      have hfull : ∀ s ∈ (chain_bucket t (chain_bucket_index t k)).slots, s.isSome = true :=
        (fillSlots_eq_none_iff _ _ _).mp hfill
      have hoccfull : occCount (chain_bucket t (chain_bucket_index t k)).slots
          = (chain_bucket t (chain_bucket_index t k)).slots.length :=
        occCount_length_of_full _ hfull
      by_cases hpool : t.poolUsed < t.E
      · have ht2 : (chain_insert t k v).2 = { t with
            buckets := t.buckets.set (chain_bucket_index t k)
              ⟨(chain_bucket t (chain_bucket_index t k)).slots ++
                  (some (k, v) :: List.replicate (t.c2 - 1) none),
               (chain_bucket t (chain_bucket_index t k)).extCount + 1⟩,
            poolUsed := t.poolUsed + 1,
            pairs := t.pairs + 1,
            extendedChunksCount := t.extendedChunksCount + 1,
            longestChain := max t.longestChain
              ((chain_bucket t (chain_bucket_index t k)).extCount + 2) } := by
          rw [chain_insert_case_extend hov hfill hpool]
        rw [ht2]
        have hsumOcc := sum_map_set (fun b => occCount b.slots) t.buckets
          (chain_bucket_index t k)
          ⟨(chain_bucket t (chain_bucket_index t k)).slots ++
              (some (k, v) :: List.replicate (t.c2 - 1) none),
           (chain_bucket t (chain_bucket_index t k)).extCount + 1⟩ ⟨[], 0⟩ hbi
        have hsumExt := sum_map_set (fun b => b.extCount) t.buckets
          (chain_bucket_index t k)
          ⟨(chain_bucket t (chain_bucket_index t k)).slots ++
              (some (k, v) :: List.replicate (t.c2 - 1) none),
           (chain_bucket t (chain_bucket_index t k)).extCount + 1⟩ ⟨[], 0⟩ hbi
        have hocc2 : occCount ((chain_bucket t (chain_bucket_index t k)).slots ++
            (some (k, v) :: List.replicate (t.c2 - 1) none))
            = occCount (chain_bucket t (chain_bucket_index t k)).slots + 1 := by
          rw [occCount_append]
          simp [occCount, List.countP_cons, occCount_replicate_none]
        have hkeys2 : keysOf ((chain_bucket t (chain_bucket_index t k)).slots ++
            (some (k, v) :: List.replicate (t.c2 - 1) none))
            = keysOf (chain_bucket t (chain_bucket_index t k)).slots ++ [k] := by
          rw [keysOf_append]
          simp [keysOf, keysOf_replicate_none]
        refine ⟨by simpa using hwf.hlen, hwf.hP, hwf.hc2, ?_, ?_, ?_, ?_, ?_, ?_, ?_, ?_⟩
        · intro b hb
          simp only at hb
          rcases List.mem_or_eq_of_mem_set hb with hb | hb
          · exact hwf.hslots b hb
          · subst hb
            simp only [List.length_append, List.length_cons, List.length_replicate]
            rw [Nat.mul_succ]
            have hc2 := hwf.hc2
            omega
        · show t.pairs + 1 = chain_totalOcc _
          have hp := hwf.hpairs
          unfold chain_totalOcc chain_bucket at *
          simp only at hsumOcc ⊢
          omega
        · show t.extendedChunksCount + 1 = chain_totalExt _
          have hp := hwf.hext
          unfold chain_totalExt chain_bucket at *
          simp only at hsumExt ⊢
          omega
        · show t.poolUsed + 1 = chain_totalExt _
          have hp := hwf.hpool
          unfold chain_totalExt chain_bucket at *
          simp only at hsumExt ⊢
          omega
        · show t.poolUsed + 1 ≤ t.E
          omega
        · intro b hb hpos
          simp only at hb
          rcases List.mem_or_eq_of_mem_set hb with hb | hb
          · exact hwf.hmin b hb hpos
          · subst hb
            simp only [Nat.add_sub_cancel]
            rw [hocc2, hoccfull, hbslots]
        · intro a
          unfold chain_all_keys
          simp only
          have hcs := chain_count_set t (chain_bucket_index t k)
            ⟨(chain_bucket t (chain_bucket_index t k)).slots ++
                (some (k, v) :: List.replicate (t.c2 - 1) none),
             (chain_bucket t (chain_bucket_index t k)).extCount + 1⟩ hbi a
          simp only at hcs
          have hsw : keysOf (chain_bucket t (chain_bucket_index t k)).slots
              = keysOf (t.buckets.getD (chain_bucket_index t k) ⟨[], 0⟩).slots := rfl
          have hcnt2 : (keysOf ((chain_bucket t (chain_bucket_index t k)).slots ++
              (some (k, v) :: List.replicate (t.c2 - 1) none))).count a
              = (if a = k then 1 else 0)
                + (keysOf (t.buckets.getD (chain_bucket_index t k) ⟨[], 0⟩).slots).count a := by
            rw [hkeys2, hsw, List.count_append]
            by_cases hak : a = k
            · subst hak
              rw [if_pos rfl, List.count_cons_self, List.count_nil]
              omega
            · rw [if_neg hak, List.count_cons_of_ne hak, List.count_nil]
              omega
          by_cases hak : a = k
          · rw [if_pos hak] at hcnt2
            have hz2 : (keysOf (t.buckets.getD (chain_bucket_index t k) ⟨[], 0⟩).slots).count a
                = 0 := by
              rw [hak]
              exact List.count_eq_zero.mpr habs
            rw [hak] at hcnt2 hcs hz2 ⊢
            omega
          · rw [if_neg hak] at hcnt2
            have := hwf.hcount a
            omega
        · intro bi2 hbi2 a ha
          simp only at hbi2 ha ⊢
          have hlen2 : bi2 < t.buckets.length := by simpa using hbi2
          show chain_bucket_index t a = bi2
          by_cases heq : bi2 = chain_bucket_index t k
          · subst heq
            rw [getD_set_self _ _ _ _ hbi] at ha
            have ha2 : a ∈ keysOf ((chain_bucket t (chain_bucket_index t k)).slots ++
                (some (k, v) :: List.replicate (t.c2 - 1) none)) := ha
            rw [hkeys2] at ha2
            rcases List.mem_append.mp ha2 with hmem | hmem
            · exact hwf.hloc _ hlen2 a hmem
            · rcases List.mem_singleton.mp hmem with rfl
              rfl
          · rw [getD_set_ne _ _ _ _ _ (fun hc => heq hc.symm)] at ha
            exact hwf.hloc bi2 hlen2 a ha
      · have ht2 : (chain_insert t k v).2
            = { t with insertFailed := t.insertFailed + 1 } := by
          rw [chain_insert_case_fail hov hfill hpool]
        rw [ht2]
        exact ⟨hwf.hlen, hwf.hP, hwf.hc2, hwf.hslots, hwf.hpairs, hwf.hext, hwf.hpool,
          hwf.hpoolE, hwf.hmin, hwf.hcount, hwf.hloc⟩

/-! ### CHAIN: reachable states, capacity, clear -/

/-- Reachable CHAIN states: a freshly constructed table (with at least one
bucket and non-trivial extended chunks) evolved by `insert` and `clear`
(spec 3, Lifecycle).  `lookup` and `stats` do not change the state. -/
inductive chain_reach : hashtable_chain_spinlock_t K V → Prop where
  | init (P E c1 c2 : Nat) (hashFn : K → Nat) (hP : 0 < P) (hc2 : 0 < c2) :
      chain_reach (chain_init P E c1 c2 hashFn)
  | insert {t : hashtable_chain_spinlock_t K V} (ht : chain_reach t) (k : K) (v : V) :
      chain_reach (chain_insert t k v).2
  | clear {t : hashtable_chain_spinlock_t K V} (ht : chain_reach t) :
      chain_reach (chain_clear t)

/-- Every reachable CHAIN state is well formed. -/
theorem chain_reach_wf {t : hashtable_chain_spinlock_t K V} (h : chain_reach t) :
    chain_wf t := by
  induction h with
  | init P E c1 c2 hashFn hP hc2 => exact chain_wf_init P E c1 c2 hashFn hP hc2
  | insert ht k v ih => exact chain_wf_insert ih k v
  | clear ht ih => exact chain_wf_init _ _ _ _ _ ih.hP ih.hc2

theorem sum_map_mul {α : Type} (c : Nat) (f : α → Nat) (l : List α) :
    (l.map (fun x => c * f x)).sum = c * (l.map f).sum := by
  induction l with
  | nil => simp
  | cons x rest ih => simp [ih, Nat.mul_add]

/-- Capacity argument (spec 8, S1): as long as fewer than `c1 + c2·E`
pairs are stored, an insert cannot fail.  A failure needs the target chain
completely full and the pool exhausted; every allocated extended chunk
was allocated by a bucket whose chain was full at that moment, so the
table already holds at least `c1 + c2·E` pairs. -/
theorem chain_insert_success_of_room {t : hashtable_chain_spinlock_t K V}
    (hwf : chain_wf t) (hc : t.c2 ≤ t.c1)
    (hroom : t.pairs < t.c1 + t.c2 * t.E) (k : K) (v : V) :
    (chain_insert t k v).1 = true := by
  have hbi : chain_bucket_index t k < t.buckets.length := by
    rw [hwf.hlen]; exact Nat.mod_lt _ hwf.hP
  cases hov : overwriteSlots (chain_bucket t (chain_bucket_index t k)).slots k v with
  | some s2 => rw [chain_insert_case_overwrite hov]
  | none =>
    cases hfill : fillSlots (chain_bucket t (chain_bucket_index t k)).slots k v with
    | some s2 => rw [chain_insert_case_fill hov hfill]
    | none =>
      by_cases hpool : t.poolUsed < t.E
      · rw [chain_insert_case_extend hov hfill hpool]
      · exfalso
        -- the target chain is full
        have hfull : ∀ s ∈ (chain_bucket t (chain_bucket_index t k)).slots, s.isSome = true :=
          (fillSlots_eq_none_iff _ _ _).mp hfill
        have hoccfull : occCount (chain_bucket t (chain_bucket_index t k)).slots
            = t.c1 + t.c2 * (chain_bucket t (chain_bucket_index t k)).extCount := by
          rw [occCount_length_of_full _ hfull]
          exact hwf.hslots _ (getD_mem _ _ _ hbi)
        -- the pool is exhausted
        have hE : chain_totalExt t = t.E := by
          have h1 := hwf.hpoolE
          have h2 := hwf.hpool
          omega
        -- each bucket stores at least c2 pairs per allocated chunk
        have hptwise : ∀ b ∈ t.buckets,
            (fun b => t.c2 * b.extCount) b ≤ (fun b => occCount b.slots) b := by
          intro b hb
          simp only
          by_cases hpos : 0 < b.extCount
          · have hmin := hwf.hmin b hb hpos
            have he : b.extCount = (b.extCount - 1) + 1 :=
              (Nat.succ_pred_eq_of_pos hpos).symm
            rw [he, Nat.mul_succ]
            have : t.c2 * (b.extCount - 1) + t.c2 ≤ t.c1 + t.c2 * (b.extCount - 1) + 1 := by
              omega
            omega
          · have : b.extCount = 0 := by omega
            simp [this]
        have hsum := sum_map_ge_at (fun b => occCount b.slots) (fun b => t.c2 * b.extCount)
          t.buckets (chain_bucket_index t k) ⟨[], 0⟩ hbi hptwise
        have hmul : (t.buckets.map (fun b => t.c2 * b.extCount)).sum
            = t.c2 * chain_totalExt t := by
          unfold chain_totalExt
          exact sum_map_mul t.c2 (fun b => b.extCount) t.buckets
        have hpairs := hwf.hpairs
        unfold chain_totalOcc at hpairs
        unfold chain_bucket at hoccfull
        rw [hmul, hE] at hsum
        simp only at hsum
        rw [hoccfull] at hsum
        -- hsum : c1 + c2·extB + c2·E ≤ totalOcc + c2·extB
        omega

/-- Building a table from fresh, pairwise-distinct keys within capacity:
every insert succeeds, `pairs` counts the inserts, `insertFailed` stays
put, and well-formedness is maintained. -/
theorem chain_run_capacity {ops : List (K × V)} :
    ∀ t : hashtable_chain_spinlock_t K V, chain_wf t → t.c2 ≤ t.c1 →
    (∀ kv ∈ ops, chain_lookup_value t kv.1 = none) →
    (ops.map Prod.fst).Nodup →
    t.pairs + ops.length ≤ t.c1 + t.c2 * t.E →
    (∀ e ∈ chain_run_log t ops, e.2 = true) ∧
    (chain_run t ops).pairs = t.pairs + ops.length ∧
    (chain_run t ops).insertFailed = t.insertFailed ∧
    chain_wf (chain_run t ops) := by
  induction ops with
  | nil =>
    intro t hwf hc hfresh hnodup hbound
    exact ⟨by simp [chain_run_log], rfl, rfl, hwf⟩
  | cons op ops ih =>
    intro t hwf hc hfresh hnodup hbound
    obtain ⟨k0, v0⟩ := op
    have habsent : chain_lookup_value t k0 = none := hfresh (k0, v0) (by simp)
    have hsucc0 : (chain_insert t k0 v0).1 = true := by
      refine chain_insert_success_of_room hwf hc ?_ k0 v0
      simp only [List.length_cons] at hbound
      omega
    have hwf2 : chain_wf (chain_insert t k0 v0).2 := chain_wf_insert hwf k0 v0
    have hpairs2 : (chain_insert t k0 v0).2.pairs = t.pairs + 1 :=
      (chain_insert_absent_stats hwf.hlen hwf.hP habsent hsucc0).1
    have hpres := chain_insert_preserves t k0 v0
    simp only [List.map_cons, List.nodup_cons] at hnodup
    have hfresh2 : ∀ kv ∈ ops, chain_lookup_value (chain_insert t k0 v0).2 kv.1 = none := by
      intro kv hkv
      have hne : kv.1 ≠ k0 := by
        intro hc2
        exact hnodup.1 (hc2 ▸ List.mem_map_of_mem Prod.fst hkv)
      rw [chain_insert_lookup_other t k0 v0 hne]
      exact hfresh kv (List.mem_cons_of_mem _ hkv)
    have hbound2 : (chain_insert t k0 v0).2.pairs + ops.length
        ≤ (chain_insert t k0 v0).2.c1
          + (chain_insert t k0 v0).2.c2 * (chain_insert t k0 v0).2.E := by
      rw [hpairs2, hpres.2.2.1, hpres.2.2.2.1, hpres.2.1]
      simp only [List.length_cons] at hbound
      omega
    have hcc2 : (chain_insert t k0 v0).2.c2 ≤ (chain_insert t k0 v0).2.c1 := by
      rw [hpres.2.2.1, hpres.2.2.2.1]
      exact hc
    obtain ⟨hall, hp, hif, hwfrun⟩ :=
      ih (chain_insert t k0 v0).2 hwf2 hcc2 hfresh2 hnodup.2 hbound2
    refine ⟨?_, ?_, ?_, hwfrun⟩
    · intro e he
      simp only [chain_run_log, List.mem_cons] at he
      rcases he with he | he
      · rw [he]
        exact hsucc0
      · exact hall e he
    · show (chain_run (chain_insert t k0 v0).2 ops).pairs = t.pairs + (ops.length + 1)
      rw [hp, hpairs2]
      omega
    · show (chain_run (chain_insert t k0 v0).2 ops).insertFailed = t.insertFailed
      rw [hif]
      exact chain_insert_true_insertFailed hsucc0

/-- Lookup in a freshly initialised (or cleared) CHAIN table always
misses. -/
theorem chain_init_lookup (P E c1 c2 : Nat) (hashFn : K → Nat) (k : K) :
    chain_lookup_value (chain_init P E c1 c2 hashFn (V := V)) k = none := by
  unfold chain_lookup_value chain_bucket
  by_cases hlt : chain_bucket_index (chain_init P E c1 c2 hashFn (V := V)) k
      < (chain_init P E c1 c2 hashFn (V := V)).buckets.length
  · rw [getD_of_lt _ _ _ hlt]
    have : (chain_init P E c1 c2 hashFn (V := V)).buckets
        = List.replicate P ⟨List.replicate c1 none, 0⟩ := rfl
    simp only [chain_init, List.getElem_replicate]
    exact lookupSlots_replicate_none c1 k
  · rw [getD_eq_of_length_le _ _ _ (Nat.le_of_not_lt hlt)]
    rfl

/-! ### MOD: `dataplane::hashtable_mod_spinlock_dynamic`

Modelled from the spec (spec 2, 3, 4.2): a runtime-sized open-addressed
table of `chunkCount` chunks of `chunkSize` slots, each chunk guarded by
its own non-recursive spinlock.  Probing visits a bounded window of
`window` consecutive chunks (modulo `chunkCount`) starting at
`h mod chunkCount`; within each chunk all slots are examined linearly.
The binding of caller-provided zeroed memory through
`updater.update_pointer(base, offset, total_size)` followed by `clear()`
is modelled by `mod_init`. -/

/-- MOD statistics record (spec 4.2). -/
structure mod_stats_t where
  pairs : Nat
  insertFailed : Nat
deriving DecidableEq

/-- Modelled from the spec: the MOD table
`hashtable_mod_spinlock_dynamic<K, V, chunk_size, hash>` with its probe
window constant. -/
structure hashtable_mod_spinlock_dynamic (K V : Type) where
  chunkSize : Nat
  hashFn : K → Nat
  chunkCount : Nat
  window : Nat
  chunks : List (List (Slot K V))
  pairs : Nat
  insertFailed : Nat

/-- The probe window of hash `h` (spec 4.2, Probing): `window` chunk
indices starting at `h mod chunkCount`, consecutive modulo `chunkCount`. -/
def mod_probe (t : hashtable_mod_spinlock_dynamic K V) (h : Nat) : List Nat :=
  (List.range t.window).map (fun i => (h % t.chunkCount + i) % t.chunkCount)

/-- The slots of the chunks `idxs`, flattened in probe order. -/
def chunksView (chunks : List (List (Slot K V))) (idxs : List Nat) : List (Slot K V) :=
  (idxs.map (fun ci => chunks.getD ci [])).flatten

/-- First pass of the MOD insert (spec 4.2, `insert` step 2): find the
first probed chunk holding key `k` and overwrite the value in place. -/
def mod_overwrite (chunks : List (List (Slot K V))) (k : K) (v : V) :
    List Nat → Option (List (List (Slot K V)))
  | [] => none
  | ci :: rest =>
    match overwriteSlots (chunks.getD ci []) k v with
    | some c2 => some (chunks.set ci c2)
    | none => mod_overwrite chunks k v rest

/-- Second pass (spec 4.2, `insert` step 3): the first empty slot across
the window receives the pair. -/
def mod_fill (chunks : List (List (Slot K V))) (k : K) (v : V) :
    List Nat → Option (List (List (Slot K V)))
  | [] => none
  | ci :: rest =>
    match fillSlots (chunks.getD ci []) k v with
    | some c2 => some (chunks.set ci c2)
    | none => mod_fill chunks k v rest

/-- Modelled from the spec: MOD `insert(hash, K, V) → bool` (spec 4.2).
Overwrite the key if present in the window, else fill the first empty
slot (bumping `pairs`), else bump `insertFailed` and return false. -/
def mod_insert (t : hashtable_mod_spinlock_dynamic K V) (h : Nat) (k : K) (v : V) :
    Bool × hashtable_mod_spinlock_dynamic K V :=
  match mod_overwrite t.chunks k v (mod_probe t h) with
  | some cs => (true, { t with chunks := cs })
  | none =>
    match mod_fill t.chunks k v (mod_probe t h) with
    | some cs => (true, { t with chunks := cs, pairs := t.pairs + 1 })
    | none => (false, { t with insertFailed := t.insertFailed + 1 })

/-- Modelled from the spec: MOD `insert_or_update(K, V) → bool`
(spec 4.2): compute `h = H(K)` and perform the insert-or-overwrite walk. -/
def insert_or_update (t : hashtable_mod_spinlock_dynamic K V) (k : K) (v : V) :
    Bool × hashtable_mod_spinlock_dynamic K V :=
  mod_insert t (t.hashFn k) k v

/-- Modelled from the spec: the probe loop of MOD
`lookup(K, out value*, out locker*) → hash` (spec 4.2).  Each candidate
chunk's lock is acquired; on a miss within the chunk it is released and
the next chunk is probed, on a hit the loop returns with the chunk lock
still held.  Returns the hash, the value pointer, the locker and the
trace of lock events. -/
def mod_lookup_go (chunks : List (List (Slot K V))) (k : K) (h : Nat) :
    List Nat → Nat × Option V × Option Nat × List lock_event
  | [] => (h, none, none, [])
  | ci :: rest =>
    match lookupSlots (chunks.getD ci []) k with
    | some v => (h, some v, some ci, [lock_event.acquire ci])
    | none =>
      let r := mod_lookup_go chunks k h rest
      (r.1, r.2.1, r.2.2.1, lock_event.acquire ci :: lock_event.release ci :: r.2.2.2)

/-- MOD `lookup`: compute `h = H(K)` and probe the window. -/
def mod_lookup (t : hashtable_mod_spinlock_dynamic K V) (k : K) :
    Nat × Option V × Option Nat × List lock_event :=
  mod_lookup_go t.chunks k (t.hashFn k) (mod_probe t (t.hashFn k))

/-- Value component of a MOD lookup. -/
def mod_lookup_value (t : hashtable_mod_spinlock_dynamic K V) (k : K) : Option V :=
  (mod_lookup t k).2.1

/-- `stats()` snapshot (spec 4.2). -/
def mod_stats (t : hashtable_mod_spinlock_dynamic K V) : mod_stats_t :=
  ⟨t.pairs, t.insertFailed⟩

/-- Modelled from the spec: construction in caller-provided zeroed memory,
`updater.update_pointer(base, offset, total_size)` and the initial
`clear()` (spec 4.2, Bind-and-clear): `ceil(total_size / chunkSize)`
chunks, all slots empty, zeroed stats. -/
def mod_init (chunkSize : Nat) (hashFn : K → Nat) (total_size window : Nat) :
    hashtable_mod_spinlock_dynamic K V :=
  ⟨chunkSize, hashFn, (total_size + chunkSize - 1) / chunkSize, window,
   List.replicate ((total_size + chunkSize - 1) / chunkSize)
     (List.replicate chunkSize none), 0, 0⟩

/-- Modelled from the spec: MOD `clear()` (spec 4.2): zero all chunks'
occupancy and value storage, reset stats. -/
def mod_clear (t : hashtable_mod_spinlock_dynamic K V) :
    hashtable_mod_spinlock_dynamic K V :=
  { t with
     chunks := List.replicate t.chunkCount (List.replicate t.chunkSize none),
     pairs := 0,
     insertFailed := 0 }

/-- Run a sequence of `insert_or_update` calls. -/
def mod_run (t : hashtable_mod_spinlock_dynamic K V) :
    List (K × V) → hashtable_mod_spinlock_dynamic K V
  | [] => t
  | (k, v) :: ops => mod_run (insert_or_update t k v).2 ops

/-- Run a sequence of `insert_or_update` calls, recording results. -/
def mod_run_log (t : hashtable_mod_spinlock_dynamic K V) :
    List (K × V) → List ((K × V) × Bool)
  | [] => []
  | (k, v) :: ops =>
      ((k, v), (insert_or_update t k v).1) :: mod_run_log (insert_or_update t k v).2 ops

/-! ### MOD: probe-view bridge and step lemmas -/

theorem chunksView_nil (chunks : List (List (Slot K V))) :
    chunksView chunks [] = [] := rfl

theorem chunksView_cons (chunks : List (List (Slot K V))) (ci : Nat) (rest : List Nat) :
    chunksView chunks (ci :: rest) = chunks.getD ci [] ++ chunksView chunks rest := by
  simp [chunksView]

/-- The value found by the per-chunk probe loop is the linear scan of the
flattened probe view. -/
theorem mod_lookup_go_value (chunks : List (List (Slot K V))) (k : K) (h : Nat)
    (idxs : List Nat) :
    (mod_lookup_go chunks k h idxs).2.1 = lookupSlots (chunksView chunks idxs) k := by
  induction idxs with
  | nil => rfl
  | cons ci rest ih =>
    rw [chunksView_cons]
    cases hc : lookupSlots (chunks.getD ci []) k with
    | some v =>
      rw [lookupSlots_append_some _ hc]
      simp only [mod_lookup_go, hc]
    | none =>
      rw [lookupSlots_append_none _ hc]
      simp only [mod_lookup_go, hc]
      exact ih

/-- The probe loop returns the hash it was given, on every path
(spec 4.2, `lookup` steps 3 and 5). -/
theorem mod_lookup_go_hash (chunks : List (List (Slot K V))) (k : K) (h : Nat)
    (idxs : List Nat) : (mod_lookup_go chunks k h idxs).1 = h := by
  induction idxs with
  | nil => rfl
  | cons ci rest ih =>
    cases hc : lookupSlots (chunks.getD ci []) k with
    | some v => simp only [mod_lookup_go, hc]
    | none =>
      simp only [mod_lookup_go, hc]
      exact ih

/-- Lock discipline of the probe loop: a miss leaves no lock held and a
null locker, a hit returns exactly the hit chunk's lock, held. -/
theorem mod_lookup_go_locks (chunks : List (List (Slot K V))) (k : K) (h : Nat)
    (idxs : List Nat) :
    ((mod_lookup_go chunks k h idxs).2.1 = none →
      (mod_lookup_go chunks k h idxs).2.2.1 = none ∧
      heldAfter (mod_lookup_go chunks k h idxs).2.2.2 = []) ∧
    (∀ v, (mod_lookup_go chunks k h idxs).2.1 = some v →
      ∃ ci, (mod_lookup_go chunks k h idxs).2.2.1 = some ci ∧
        heldAfter (mod_lookup_go chunks k h idxs).2.2.2 = [ci]) := by
  induction idxs with
  | nil =>
    refine ⟨fun _ => ⟨rfl, rfl⟩, fun v hv => ?_⟩
    simp [mod_lookup_go] at hv
  | cons ci rest ih =>
    cases hc : lookupSlots (chunks.getD ci []) k with
    | some w =>
      refine ⟨fun hmiss => ?_, fun v hv => ?_⟩
      · simp only [mod_lookup_go, hc] at hmiss
        cases hmiss
      · refine ⟨ci, by simp only [mod_lookup_go, hc], ?_⟩
        simp only [mod_lookup_go, hc]
        simp [heldAfter, heldStep]
    | none =>
      refine ⟨fun hmiss => ?_, fun v hv => ?_⟩
      · simp only [mod_lookup_go, hc] at hmiss ⊢
        refine ⟨(ih.1 hmiss).1, ?_⟩
        rw [heldAfter_acquire_release]
        exact (ih.1 hmiss).2
      · simp only [mod_lookup_go, hc] at hv ⊢
        obtain ⟨cj, hcj, hheld⟩ := ih.2 v hv
        refine ⟨cj, hcj, ?_⟩
        rw [heldAfter_acquire_release]
        exact hheld

/-- A successful overwrite pinpoints the updated chunk. -/
theorem mod_overwrite_some_spec {chunks : List (List (Slot K V))} {k : K} {v : V}
    {idxs : List Nat} {cs2 : List (List (Slot K V))}
    (h : mod_overwrite chunks k v idxs = some cs2) :
    ∃ ci c2, ci ∈ idxs ∧ overwriteSlots (chunks.getD ci []) k v = some c2 ∧
      cs2 = chunks.set ci c2 := by
  induction idxs with
  | nil => simp [mod_overwrite] at h
  | cons ci rest ih =>
    cases hc : overwriteSlots (chunks.getD ci []) k v with
    | some c2 =>
      simp only [mod_overwrite, hc, Option.some_inj] at h
      exact ⟨ci, c2, by simp, hc, h.symm⟩
    | none =>
      simp only [mod_overwrite, hc] at h
      obtain ⟨cj, c2, hmem, hcj, hcs⟩ := ih h
      exact ⟨cj, c2, List.mem_cons_of_mem _ hmem, hcj, hcs⟩

theorem mod_fill_some_spec {chunks : List (List (Slot K V))} {k : K} {v : V}
    {idxs : List Nat} {cs2 : List (List (Slot K V))}
    (h : mod_fill chunks k v idxs = some cs2) :
    ∃ ci c2, ci ∈ idxs ∧ fillSlots (chunks.getD ci []) k v = some c2 ∧
      cs2 = chunks.set ci c2 := by
  induction idxs with
  | nil => simp [mod_fill] at h
  | cons ci rest ih =>
    cases hc : fillSlots (chunks.getD ci []) k v with
    | some c2 =>
      simp only [mod_fill, hc, Option.some_inj] at h
      exact ⟨ci, c2, by simp, hc, h.symm⟩
    | none =>
      simp only [mod_fill, hc] at h
      obtain ⟨cj, c2, hmem, hcj, hcs⟩ := ih h
      exact ⟨cj, c2, List.mem_cons_of_mem _ hmem, hcj, hcs⟩

theorem mod_overwrite_none_iff (chunks : List (List (Slot K V))) (k : K) (v : V)
    (idxs : List Nat) :
    mod_overwrite chunks k v idxs = none
      ↔ lookupSlots (chunksView chunks idxs) k = none := by
  induction idxs with
  | nil => simp [mod_overwrite, chunksView_nil, lookupSlots]
  | cons ci rest ih =>
    rw [chunksView_cons]
    cases hc : overwriteSlots (chunks.getD ci []) k v with
    | some c2 =>
      simp only [mod_overwrite, hc]
      constructor
      · intro hcon; cases hcon
      · intro hmiss
        exfalso
        have hnone : lookupSlots (chunks.getD ci []) k = none := by
          cases hl : lookupSlots (chunks.getD ci []) k with
          | none => rfl
          | some w =>
            rw [lookupSlots_append_some _ hl] at hmiss
            cases hmiss
        rw [(overwriteSlots_eq_none_iff _ _ _).mpr hnone] at hc
        cases hc
    | none =>
      have hnone : lookupSlots (chunks.getD ci []) k = none :=
        (overwriteSlots_eq_none_iff _ _ _).mp hc
      rw [lookupSlots_append_none _ hnone]
      simp only [mod_overwrite, hc]
      exact ih

theorem mod_fill_none_iff (chunks : List (List (Slot K V))) (k : K) (v : V)
    (idxs : List Nat) :
    mod_fill chunks k v idxs = none
      ↔ ∀ s ∈ chunksView chunks idxs, s.isSome = true := by
  induction idxs with
  | nil => simp [mod_fill, chunksView_nil]
  | cons ci rest ih =>
    rw [chunksView_cons]
    cases hc : fillSlots (chunks.getD ci []) k v with
    | some c2 =>
      simp only [mod_fill, hc]
      constructor
      · intro hcon; cases hcon
      · intro hfull
        exfalso
        have : ∀ s ∈ chunks.getD ci [], s.isSome = true := by
          intro s hs
          exact hfull s (List.mem_append_left _ hs)
        rw [(fillSlots_eq_none_iff _ _ _).mpr this] at hc
        cases hc
    | none =>
      have hfullc : ∀ s ∈ chunks.getD ci [], s.isSome = true :=
        (fillSlots_eq_none_iff _ _ _).mp hc
      simp only [mod_fill, hc]
      rw [ih]
      constructor
      · intro hrest s hs
        rcases List.mem_append.mp hs with hs | hs
        · exact hfullc s hs
        · exact hrest s hs
      · intro hall s hs
        exact hall s (List.mem_append_right _ hs)

theorem overwrite_chunk_in_range {chunks : List (List (Slot K V))} {ci : Nat} {k : K}
    {v : V} {c2 : List (Slot K V)}
    (h : overwriteSlots (chunks.getD ci []) k v = some c2) : ci < chunks.length := by
  by_contra hc
  rw [getD_eq_of_length_le _ _ _ (Nat.le_of_not_lt hc)] at h
  simp [overwriteSlots] at h

theorem fill_chunk_in_range {chunks : List (List (Slot K V))} {ci : Nat} {k : K}
    {v : V} {c2 : List (Slot K V)}
    (h : fillSlots (chunks.getD ci []) k v = some c2) : ci < chunks.length := by
  by_contra hc
  rw [getD_eq_of_length_le _ _ _ (Nat.le_of_not_lt hc)] at h
  simp [fillSlots] at h

/-- After a successful overwrite the probe view scans to the new value. -/
theorem mod_overwrite_some_lookup {chunks : List (List (Slot K V))} {k : K} {v : V}
    {idxs : List Nat} {cs2 : List (List (Slot K V))}
    (h : mod_overwrite chunks k v idxs = some cs2) :
    lookupSlots (chunksView cs2 idxs) k = some v := by
  induction idxs with
  | nil => simp [mod_overwrite] at h
  | cons ci rest ih =>
    rw [chunksView_cons]
    cases hc : overwriteSlots (chunks.getD ci []) k v with
    | some c2 =>
      simp only [mod_overwrite, hc, Option.some_inj] at h
      subst h
      rw [getD_set_self _ _ _ _ (overwrite_chunk_in_range hc)]
      exact lookupSlots_append_some _ (overwriteSlots_some_lookup hc)
    | none =>
      simp only [mod_overwrite, hc] at h
      obtain ⟨cj, c2, hmem, hcj, hcs⟩ := mod_overwrite_some_spec h
      have hne : cj ≠ ci := by
        intro hcon
        rw [hcon] at hcj
        rw [hcj] at hc
        cases hc
      have hhead : cs2.getD ci [] = chunks.getD ci [] := by
        rw [hcs]
        exact getD_set_ne _ _ _ _ _ hne
      have hheadmiss : lookupSlots (cs2.getD ci []) k = none := by
        rw [hhead]
        exact (overwriteSlots_eq_none_iff _ _ _).mp hc
      rw [lookupSlots_append_none _ hheadmiss]
      exact ih h

/-- After a successful fill of an absent key the probe view scans to the
new value. -/
theorem mod_fill_some_lookup {chunks : List (List (Slot K V))} {k : K} {v : V}
    {idxs : List Nat} {cs2 : List (List (Slot K V))}
    (h : mod_fill chunks k v idxs = some cs2)
    (hmiss : lookupSlots (chunksView chunks idxs) k = none) :
    lookupSlots (chunksView cs2 idxs) k = some v := by
  induction idxs with
  | nil => simp [mod_fill] at h
  | cons ci rest ih =>
    rw [chunksView_cons] at hmiss ⊢
    have hheadmiss : lookupSlots (chunks.getD ci []) k = none := by
      cases hl : lookupSlots (chunks.getD ci []) k with
      | none => rfl
      | some w =>
        rw [lookupSlots_append_some _ hl] at hmiss
        cases hmiss
    rw [lookupSlots_append_none _ hheadmiss] at hmiss
    cases hc : fillSlots (chunks.getD ci []) k v with
    | some c2 =>
      simp only [mod_fill, hc, Option.some_inj] at h
      subst h
      rw [getD_set_self _ _ _ _ (fill_chunk_in_range hc)]
      exact lookupSlots_append_some _ (fillSlots_some_lookup hc hheadmiss)
    | none =>
      simp only [mod_fill, hc] at h
      obtain ⟨cj, c2, hmem, hcj, hcs⟩ := mod_fill_some_spec h
      have hne : cj ≠ ci := by
        intro hcon
        rw [hcon] at hcj
        rw [hcj] at hc
        cases hc
      have hhead : cs2.getD ci [] = chunks.getD ci [] := by
        rw [hcs]
        exact getD_set_ne _ _ _ _ _ hne
      have hheadmiss2 : lookupSlots (cs2.getD ci []) k = none := by
        rw [hhead]
        exact hheadmiss
      rw [lookupSlots_append_none _ hheadmiss2]
      exact ih h hmiss

/-- Updating one chunk without changing its view for `k2` leaves the view
of every probe window unchanged for `k2`. -/
theorem chunksView_set_view {chunks : List (List (Slot K V))} {ci : Nat}
    {c2 : List (Slot K V)} (k2 : K)
    (hview : c2.map (slotView k2) = (chunks.getD ci []).map (slotView k2))
    (idxs : List Nat) :
    (chunksView (chunks.set ci c2) idxs).map (slotView k2)
      = (chunksView chunks idxs).map (slotView k2) := by
  induction idxs with
  | nil => rfl
  | cons cj rest ih =>
    rw [chunksView_cons, chunksView_cons, List.map_append, List.map_append, ih]
    by_cases hr : ci < chunks.length
    · by_cases hcj : cj = ci
      · subst hcj
        rw [getD_set_self _ _ _ _ hr, hview]
      · rw [getD_set_ne _ _ _ _ _ (fun hc => hcj hc.symm)]
    · rw [set_of_length_le _ _ _ (Nat.le_of_not_lt hr)]

/-! ### MOD: insert case lemmas and lookup stability -/

theorem mod_insert_case_overwrite {t : hashtable_mod_spinlock_dynamic K V} {h : Nat}
    {k : K} {v : V} {cs : List (List (Slot K V))}
    (hov : mod_overwrite t.chunks k v (mod_probe t h) = some cs) :
    mod_insert t h k v = (true, { t with chunks := cs }) := by
  unfold mod_insert
  rw [hov]

theorem mod_insert_case_fill {t : hashtable_mod_spinlock_dynamic K V} {h : Nat}
    {k : K} {v : V} {cs : List (List (Slot K V))}
    (hov : mod_overwrite t.chunks k v (mod_probe t h) = none)
    (hfill : mod_fill t.chunks k v (mod_probe t h) = some cs) :
    mod_insert t h k v = (true, { t with chunks := cs, pairs := t.pairs + 1 }) := by
  unfold mod_insert
  rw [hov, hfill]

theorem mod_insert_case_fail {t : hashtable_mod_spinlock_dynamic K V} {h : Nat}
    {k : K} {v : V}
    (hov : mod_overwrite t.chunks k v (mod_probe t h) = none)
    (hfill : mod_fill t.chunks k v (mod_probe t h) = none) :
    mod_insert t h k v = (false, { t with insertFailed := t.insertFailed + 1 }) := by
  unfold mod_insert
  rw [hov, hfill]

/-- MOD lookup of `k2` depends only on the hash function, the probe
geometry and the chunks. -/
theorem mod_lookup_value_eq (t2 t : hashtable_mod_spinlock_dynamic K V) (k : K)
    (hh : t2.hashFn = t.hashFn) (hcc : t2.chunkCount = t.chunkCount)
    (hw : t2.window = t.window) :
    mod_lookup_value t2 k
      = lookupSlots (chunksView t2.chunks (mod_probe t (t.hashFn k))) k := by
  unfold mod_lookup_value mod_lookup mod_probe
  rw [hh, hcc, hw]
  exact mod_lookup_go_value _ _ _ _

/-- MOD insert never touches the table's parameters. -/
theorem mod_insert_preserves (t : hashtable_mod_spinlock_dynamic K V) (h : Nat)
    (k : K) (v : V) :
    (mod_insert t h k v).2.chunkSize = t.chunkSize ∧
    (mod_insert t h k v).2.hashFn = t.hashFn ∧
    (mod_insert t h k v).2.chunkCount = t.chunkCount ∧
    (mod_insert t h k v).2.window = t.window ∧
    (mod_insert t h k v).2.chunks.length = t.chunks.length := by
  cases hov : mod_overwrite t.chunks k v (mod_probe t h) with
  | some cs =>
    obtain ⟨ci, c2, _, _, rfl⟩ := mod_overwrite_some_spec hov
    rw [mod_insert_case_overwrite hov]
    simp
  | none =>
    cases hfill : mod_fill t.chunks k v (mod_probe t h) with
    | some cs =>
      obtain ⟨ci, c2, _, _, rfl⟩ := mod_fill_some_spec hfill
      rw [mod_insert_case_fill hov hfill]
      simp
    | none =>
      rw [mod_insert_case_fail hov hfill]
      simp

/-- Round-trip step for MOD (spec 8, invariant 6): a successful
`insert_or_update (k, v)` makes `lookup k` return `v`. -/
theorem mod_insert_true_lookup {t : hashtable_mod_spinlock_dynamic K V} {k : K} {v : V}
    (h : (insert_or_update t k v).1 = true) :
    mod_lookup_value (insert_or_update t k v).2 k = some v := by
  unfold insert_or_update at h ⊢
  cases hov : mod_overwrite t.chunks k v (mod_probe t (t.hashFn k)) with
  | some cs =>
    have hstep := mod_insert_case_overwrite hov
    have hc : (mod_insert t (t.hashFn k) k v).2.chunks = cs := by rw [hstep]
    have hh : (mod_insert t (t.hashFn k) k v).2.hashFn = t.hashFn := by rw [hstep]
    have hcc : (mod_insert t (t.hashFn k) k v).2.chunkCount = t.chunkCount := by rw [hstep]
    have hw : (mod_insert t (t.hashFn k) k v).2.window = t.window := by rw [hstep]
    rw [mod_lookup_value_eq _ t _ hh hcc hw, hc]
    exact mod_overwrite_some_lookup hov
  | none =>
    have hmiss : lookupSlots (chunksView t.chunks (mod_probe t (t.hashFn k))) k = none :=
      (mod_overwrite_none_iff _ _ _ _).mp hov
    cases hfill : mod_fill t.chunks k v (mod_probe t (t.hashFn k)) with
    | some cs =>
      have hstep := mod_insert_case_fill hov hfill
      have hc : (mod_insert t (t.hashFn k) k v).2.chunks = cs := by rw [hstep]
      have hh : (mod_insert t (t.hashFn k) k v).2.hashFn = t.hashFn := by rw [hstep]
      have hcc : (mod_insert t (t.hashFn k) k v).2.chunkCount = t.chunkCount := by rw [hstep]
      have hw : (mod_insert t (t.hashFn k) k v).2.window = t.window := by rw [hstep]
      rw [mod_lookup_value_eq _ t _ hh hcc hw, hc]
      exact mod_fill_some_lookup hfill hmiss
    | none =>
      rw [mod_insert_case_fail hov hfill] at h
      cases h

/-- Inserting `k` (with any hash argument) does not disturb the lookup of
any other key `k2`. -/
theorem mod_insert_lookup_other (t : hashtable_mod_spinlock_dynamic K V) (h : Nat)
    (k : K) (v : V) {k2 : K} (hk : k2 ≠ k) :
    mod_lookup_value (mod_insert t h k v).2 k2 = mod_lookup_value t k2 := by
  have hbase : mod_lookup_value t k2
      = lookupSlots (chunksView t.chunks (mod_probe t (t.hashFn k2))) k2 :=
    mod_lookup_value_eq t t k2 rfl rfl rfl
  cases hov : mod_overwrite t.chunks k v (mod_probe t h) with
  | some cs =>
    obtain ⟨ci, c2, hmem, hcj, rfl⟩ := mod_overwrite_some_spec hov
    have hstep := mod_insert_case_overwrite hov
    have hc : (mod_insert t h k v).2.chunks = t.chunks.set ci c2 := by rw [hstep]
    have hh : (mod_insert t h k v).2.hashFn = t.hashFn := by rw [hstep]
    have hcc : (mod_insert t h k v).2.chunkCount = t.chunkCount := by rw [hstep]
    have hw : (mod_insert t h k v).2.window = t.window := by rw [hstep]
    rw [mod_lookup_value_eq _ t _ hh hcc hw, hc, hbase]
    rw [lookupSlots_eq_firstSome, lookupSlots_eq_firstSome]
    rw [chunksView_set_view k2 (overwriteSlots_some_view hcj k2 hk)]
  | none =>
    cases hfill : mod_fill t.chunks k v (mod_probe t h) with
    | some cs =>
      obtain ⟨ci, c2, hmem, hcj, rfl⟩ := mod_fill_some_spec hfill
      have hstep := mod_insert_case_fill hov hfill
      have hc : (mod_insert t h k v).2.chunks = t.chunks.set ci c2 := by rw [hstep]
      have hh : (mod_insert t h k v).2.hashFn = t.hashFn := by rw [hstep]
      have hcc : (mod_insert t h k v).2.chunkCount = t.chunkCount := by rw [hstep]
      have hw : (mod_insert t h k v).2.window = t.window := by rw [hstep]
      rw [mod_lookup_value_eq _ t _ hh hcc hw, hc, hbase]
      rw [lookupSlots_eq_firstSome, lookupSlots_eq_firstSome]
      rw [chunksView_set_view k2 (fillSlots_some_view hcj k2 hk)]
    | none =>
      have hstep := mod_insert_case_fail hov hfill
      have hc : (mod_insert t h k v).2.chunks = t.chunks := by rw [hstep]
      have hh : (mod_insert t h k v).2.hashFn = t.hashFn := by rw [hstep]
      have hcc : (mod_insert t h k v).2.chunkCount = t.chunkCount := by rw [hstep]
      have hw : (mod_insert t h k v).2.window = t.window := by rw [hstep]
      rw [mod_lookup_value_eq _ t _ hh hcc hw, hc, hbase]

/-- A failed MOD insert changes nothing but the `insertFailed` counter. -/
theorem mod_insert_false_eq {t : hashtable_mod_spinlock_dynamic K V} {h : Nat}
    {k : K} {v : V} (hf : (mod_insert t h k v).1 = false) :
    (mod_insert t h k v).2 = { t with insertFailed := t.insertFailed + 1 } := by
  cases hov : mod_overwrite t.chunks k v (mod_probe t h) with
  | some cs => rw [mod_insert_case_overwrite hov] at hf; cases hf
  | none =>
    cases hfill : mod_fill t.chunks k v (mod_probe t h) with
    | some cs => rw [mod_insert_case_fill hov hfill] at hf; cases hf
    | none => rw [mod_insert_case_fail hov hfill]

/-- A successful MOD insert does not touch `insertFailed`. -/
theorem mod_insert_true_insertFailed {t : hashtable_mod_spinlock_dynamic K V} {h : Nat}
    {k : K} {v : V} (hs : (mod_insert t h k v).1 = true) :
    (mod_insert t h k v).2.insertFailed = t.insertFailed := by
  cases hov : mod_overwrite t.chunks k v (mod_probe t h) with
  | some cs => rw [mod_insert_case_overwrite hov]
  | none =>
    cases hfill : mod_fill t.chunks k v (mod_probe t h) with
    | some cs => rw [mod_insert_case_fill hov hfill]
    | none => rw [mod_insert_case_fail hov hfill] at hs; cases hs

theorem mod_insert_false_lookup {t : hashtable_mod_spinlock_dynamic K V} {h : Nat}
    {k1 : K} {v1 : V} (hf : (mod_insert t h k1 v1).1 = false) (k : K) :
    mod_lookup_value (mod_insert t h k1 v1).2 k = mod_lookup_value t k := by
  have hc : (mod_insert t h k1 v1).2.chunks = t.chunks := by
    rw [mod_insert_false_eq hf]
  have hh : (mod_insert t h k1 v1).2.hashFn = t.hashFn := by
    rw [mod_insert_false_eq hf]
  have hcc : (mod_insert t h k1 v1).2.chunkCount = t.chunkCount := by
    rw [mod_insert_false_eq hf]
  have hw : (mod_insert t h k1 v1).2.window = t.window := by
    rw [mod_insert_false_eq hf]
  rw [mod_lookup_value_eq _ t _ hh hcc hw, hc]
  exact (mod_lookup_value_eq t t k rfl rfl rfl).symm

/-! ### MOD: whole-run lemmas -/

theorem mod_run_log_mem {t : hashtable_mod_spinlock_dynamic K V} {ops : List (K × V)}
    {e : (K × V) × Bool} (h : e ∈ mod_run_log t ops) : e.1 ∈ ops := by
  induction ops generalizing t with
  | nil => simp [mod_run_log] at h
  | cons op ops ih =>
    obtain ⟨k, v⟩ := op
    simp only [mod_run_log, List.mem_cons] at h
    rcases h with h | h
    · subst h; simp
    · exact List.mem_cons_of_mem _ (ih h)

theorem mod_run_preserve {t : hashtable_mod_spinlock_dynamic K V} {ops : List (K × V)}
    {k : K} (h : ∀ e ∈ mod_run_log t ops, ¬(e.2 = true ∧ e.1.1 = k)) :
    mod_lookup_value (mod_run t ops) k = mod_lookup_value t k := by
  induction ops generalizing t with
  | nil => rfl
  | cons op ops ih =>
    obtain ⟨k1, v1⟩ := op
    have hhead := h ((k1, v1), (insert_or_update t k1 v1).1) (by simp [mod_run_log])
    have htail : ∀ e ∈ mod_run_log (insert_or_update t k1 v1).2 ops,
        ¬(e.2 = true ∧ e.1.1 = k) := by
      intro e he
      exact h e (by simp [mod_run_log, he])
    simp only [mod_run]
    rw [ih htail]
    by_cases hk : k1 = k
    · cases hres : (insert_or_update t k1 v1).1 with
      | true => exact absurd ⟨hres, hk⟩ hhead
      | false => exact mod_insert_false_lookup hres k
    · exact mod_insert_lookup_other t (t.hashFn k1) k1 v1 (fun hc => hk hc.symm)

/-- Last-write-wins round trip over an arbitrary MOD run (spec 8,
invariant 1). -/
theorem mod_run_lastInserted {t : hashtable_mod_spinlock_dynamic K V} {ops : List (K × V)}
    {k : K} {v : V} (h : lastInserted (mod_run_log t ops) k = some v) :
    mod_lookup_value (mod_run t ops) k = some v := by
  induction ops generalizing t with
  | nil => simp [mod_run_log, lastInserted] at h
  | cons op ops ih =>
    obtain ⟨k1, v1⟩ := op
    simp only [mod_run, mod_run_log] at h ⊢
    unfold lastInserted at h
    rw [List.reverse_cons] at h
    cases hfind : (mod_run_log (insert_or_update t k1 v1).2 ops).reverse.find?
        (fun e => e.2 && decide (e.1.1 = k)) with
    | some e2 =>
      rw [find?_append_of_some _ _ _ _ hfind] at h
      refine ih ?_
      unfold lastInserted
      rw [hfind]
      simpa using h
    | none =>
      rw [find?_append_of_none _ _ _ hfind] at h
      have hnone : ∀ e ∈ mod_run_log (insert_or_update t k1 v1).2 ops,
          ¬(e.2 = true ∧ e.1.1 = k) := by
        intro e he hc
        have := List.find?_eq_none.mp hfind e (List.mem_reverse.mpr he)
        simp [hc.1, hc.2] at this
      rw [mod_run_preserve hnone]
      cases hres : (insert_or_update t k1 v1).1 with
      | false =>
        rw [hres] at h
        simp [List.find?] at h
      | true =>
        rw [hres] at h
        by_cases hk : k1 = k
        · subst hk
          simp [List.find?] at h
          rw [← h]
          exact mod_insert_true_lookup hres
        · simp [List.find?, hk] at h

/-! ### MOD: statistics lemmas -/

/-- Total number of occupied slots across all chunks. -/
def mod_totalOcc (t : hashtable_mod_spinlock_dynamic K V) : Nat :=
  (t.chunks.map occCount).sum

/-- All keys stored in the table, chunk by chunk. -/
def mod_all_keys (t : hashtable_mod_spinlock_dynamic K V) : List K :=
  (t.chunks.map keysOf).flatten

/-- Duplicate insert (spec 4.2, step 2): a present key is overwritten in
place -- the call succeeds, `pairs` and the total occupancy are
unchanged. -/
theorem mod_insert_present_stats {t : hashtable_mod_spinlock_dynamic K V} {k : K} {v : V}
    {w : V} (hpresent : mod_lookup_value t k = some w) :
    (insert_or_update t k v).1 = true ∧
    (insert_or_update t k v).2.pairs = t.pairs ∧
    mod_totalOcc (insert_or_update t k v).2 = mod_totalOcc t := by
  have hview : lookupSlots (chunksView t.chunks (mod_probe t (t.hashFn k))) k = some w := by
    rw [← mod_lookup_value_eq t t k rfl rfl rfl]
    exact hpresent
  unfold insert_or_update
  cases hov : mod_overwrite t.chunks k v (mod_probe t (t.hashFn k)) with
  | none =>
    rw [(mod_overwrite_none_iff _ _ _ _).mp hov] at hview
    cases hview
  | some cs =>
    obtain ⟨ci, c2, hmem, hcj, rfl⟩ := mod_overwrite_some_spec hov
    have hstep := mod_insert_case_overwrite hov
    refine ⟨by rw [hstep], by rw [hstep], ?_⟩
    have hc : (mod_insert t (t.hashFn k) k v).2.chunks = t.chunks.set ci c2 := by rw [hstep]
    unfold mod_totalOcc
    rw [hc]
    have hsum := sum_map_set occCount t.chunks ci c2 [] (overwrite_chunk_in_range hcj)
    have hocc : occCount c2 = occCount (t.chunks.getD ci []) := overwriteSlots_some_occ hcj
    omega

/-- New-key insert (spec 4.2, step 3): a successful insert of an absent
key increments `pairs` and the total occupancy by exactly one. -/
theorem mod_insert_absent_stats {t : hashtable_mod_spinlock_dynamic K V} {k : K} {v : V}
    (habsent : mod_lookup_value t k = none) (hsucc : (insert_or_update t k v).1 = true) :
    (insert_or_update t k v).2.pairs = t.pairs + 1 ∧
    mod_totalOcc (insert_or_update t k v).2 = mod_totalOcc t + 1 := by
  have hview : lookupSlots (chunksView t.chunks (mod_probe t (t.hashFn k))) k = none := by
    rw [← mod_lookup_value_eq t t k rfl rfl rfl]
    exact habsent
  unfold insert_or_update at hsucc ⊢
  cases hov : mod_overwrite t.chunks k v (mod_probe t (t.hashFn k)) with
  | some cs =>
    exfalso
    rw [(mod_overwrite_none_iff _ _ _ _).mpr hview] at hov
    cases hov
  | none =>
    cases hfill : mod_fill t.chunks k v (mod_probe t (t.hashFn k)) with
    | some cs =>
      obtain ⟨ci, c2, hmem, hcj, rfl⟩ := mod_fill_some_spec hfill
      have hstep := mod_insert_case_fill hov hfill
      refine ⟨by rw [hstep], ?_⟩
      have hc : (mod_insert t (t.hashFn k) k v).2.chunks = t.chunks.set ci c2 := by rw [hstep]
      unfold mod_totalOcc
      rw [hc]
      have hsum := sum_map_set occCount t.chunks ci c2 [] (fill_chunk_in_range hcj)
      have hocc : occCount c2 = occCount (t.chunks.getD ci []) + 1 := fillSlots_some_occ hcj
      omega
    | none =>
      rw [mod_insert_case_fail hov hfill] at hsucc
      cases hsucc

/-! ### MOD: the reachable-state invariant -/

theorem mem_keysOf {l : List (Slot K V)} {a : K} :
    a ∈ keysOf l ↔ ∃ w, some (a, w) ∈ l := by
  unfold keysOf
  rw [List.mem_filterMap]
  constructor
  · rintro ⟨s, hs, hmap⟩
    cases s with
    | none => cases hmap
    | some p =>
      simp only [Option.map_some', Option.some_inj] at hmap
      exact ⟨p.2, by rw [← hmap]; simpa using hs⟩
  · rintro ⟨w, hw⟩
    exact ⟨some (a, w), hw, rfl⟩

theorem mem_chunksView {chunks : List (List (Slot K V))} {idxs : List Nat} {ci : Nat}
    {s : Slot K V} (hci : ci ∈ idxs) (hs : s ∈ chunks.getD ci []) :
    s ∈ chunksView chunks idxs := by
  unfold chunksView
  rw [List.mem_flatten]
  exact ⟨chunks.getD ci [], List.mem_map_of_mem _ hci, hs⟩

/-- Well-formedness of a MOD table state (spec 3, Invariants): `pairs`
mirrors the occupancy, every stored key is stored at most once, and every
stored key lies inside the probe window of its own hash. -/
structure mod_wf (t : hashtable_mod_spinlock_dynamic K V) : Prop where
  hlen : t.chunks.length = t.chunkCount
  hchunk : ∀ c ∈ t.chunks, c.length = t.chunkSize
  hpairs : t.pairs = mod_totalOcc t
  hcount : ∀ a : K, (mod_all_keys t).count a ≤ 1
  hloc : ∀ ci < t.chunks.length, ∀ a : K,
      a ∈ keysOf (t.chunks.getD ci []) → ci ∈ mod_probe t (t.hashFn a)

/-- Key-count bookkeeping for a single-chunk update. -/
theorem mod_count_set (chunks : List (List (Slot K V))) (ci : Nat)
    (c2 : List (Slot K V)) (hci : ci < chunks.length) (a : K) :
    (((chunks.set ci c2).map keysOf).flatten).count a
        + (keysOf (chunks.getD ci [])).count a
      = ((chunks.map keysOf).flatten).count a + (keysOf c2).count a := by
  rw [count_join, count_join, List.map_map, List.map_map]
  have := sum_map_set (fun c => (keysOf c).count a) chunks ci c2 [] hci
  simpa [Function.comp] using this

/-- A key missing from its whole probe window is missing from the whole
table. -/
theorem mod_absent_count_zero {t : hashtable_mod_spinlock_dynamic K V} (hwf : mod_wf t)
    {k : K}
    (hmiss : lookupSlots (chunksView t.chunks (mod_probe t (t.hashFn k))) k = none) :
    (mod_all_keys t).count k = 0 := by
  unfold mod_all_keys
  rw [count_join]
  apply list_sum_zero_of_all_zero
  intro x hx
  rcases List.mem_map.mp hx with ⟨l, hl, rfl⟩
  rcases List.mem_map.mp hl with ⟨c, hc, rfl⟩
  rw [List.count_eq_zero]
  intro hmem
  rcases List.getElem_of_mem hc with ⟨j, hj, hjc⟩
  have hjd : t.chunks.getD j [] = c := by rw [getD_of_lt _ _ _ hj, hjc]
  have hjin : j ∈ mod_probe t (t.hashFn k) := hwf.hloc j hj k (by rw [hjd]; exact hmem)
  obtain ⟨w, hw⟩ := mem_keysOf.mp hmem
  have hsv : slotView k (some (k, w) : Slot K V) = some w := by simp [slotView]
  have := (lookupSlots_eq_none_iff _ _).mp hmiss (some (k, w))
    (mem_chunksView hjin (by rw [hjd]; exact hw))
  rw [hsv] at this
  cases this

/-- `insert_or_update` preserves well-formedness. -/
theorem mod_wf_insert {t : hashtable_mod_spinlock_dynamic K V} (hwf : mod_wf t)
    (k : K) (v : V) : mod_wf (insert_or_update t k v).2 := by
  unfold insert_or_update
  cases hov : mod_overwrite t.chunks k v (mod_probe t (t.hashFn k)) with
  | some cs =>
    obtain ⟨ci, c2, hmem, hcj, rfl⟩ := mod_overwrite_some_spec hov
    have hci : ci < t.chunks.length := overwrite_chunk_in_range hcj
    have ht2 : (mod_insert t (t.hashFn k) k v).2 = { t with chunks := t.chunks.set ci c2 } := by
      rw [mod_insert_case_overwrite hov]
    rw [ht2]
    have hkeys := overwriteSlots_some_keys hcj
    have hocc := overwriteSlots_some_occ hcj
    have hlength := overwriteSlots_some_length hcj
    have hprobe : ∀ h2 : Nat,
        mod_probe { t with chunks := t.chunks.set ci c2 } h2 = mod_probe t h2 :=
      fun _ => rfl
    refine ⟨by simpa using hwf.hlen, ?_, ?_, ?_, ?_⟩
    · intro c hc
      simp only at hc
      rcases List.mem_or_eq_of_mem_set hc with hc | hc
      · exact hwf.hchunk c hc
      · subst hc
        rw [hlength]
        exact hwf.hchunk _ (getD_mem _ _ _ hci)
    · show t.pairs = mod_totalOcc _
      have hp := hwf.hpairs
      unfold mod_totalOcc at *
      simp only
      have hsum := sum_map_set occCount t.chunks ci c2 [] hci
      omega
    · intro a
      show ((List.map keysOf _).flatten).count a ≤ 1
      simp only
      have hcs := mod_count_set t.chunks ci c2 hci a
      have hsame : (keysOf c2).count a = (keysOf (t.chunks.getD ci [])).count a := by
        rw [hkeys]
      have := hwf.hcount a
      unfold mod_all_keys at this
      omega
    · intro cj hcj2 a ha
      simp only at hcj2 ha
      rw [hprobe]
      have hlen2 : cj < t.chunks.length := by simpa using hcj2
      show cj ∈ mod_probe t (t.hashFn a)
      by_cases heq : cj = ci
      · subst heq
        rw [getD_set_self _ _ _ _ hci] at ha
        rw [hkeys] at ha
        exact hwf.hloc cj hlen2 a ha
      · rw [getD_set_ne _ _ _ _ _ (fun hc => heq hc.symm)] at ha
        exact hwf.hloc cj hlen2 a ha
  | none =>
    have hmiss : lookupSlots (chunksView t.chunks (mod_probe t (t.hashFn k))) k = none :=
      (mod_overwrite_none_iff _ _ _ _).mp hov
    have hzero : (mod_all_keys t).count k = 0 := mod_absent_count_zero hwf hmiss
    cases hfill : mod_fill t.chunks k v (mod_probe t (t.hashFn k)) with
    | some cs =>
      obtain ⟨ci, c2, hmem, hcj, rfl⟩ := mod_fill_some_spec hfill
      have hci : ci < t.chunks.length := fill_chunk_in_range hcj
      have ht2 : (mod_insert t (t.hashFn k) k v).2
          = { t with chunks := t.chunks.set ci c2, pairs := t.pairs + 1 } := by
        rw [mod_insert_case_fill hov hfill]
      rw [ht2]
      have hperm := fillSlots_some_keys_perm hcj
      have hocc := fillSlots_some_occ hcj
      have hlength := fillSlots_some_length hcj
      have hprobe : ∀ h2 : Nat,
          mod_probe { t with chunks := t.chunks.set ci c2, pairs := t.pairs + 1 } h2
            = mod_probe t h2 := fun _ => rfl
      have habs : k ∉ keysOf (t.chunks.getD ci []) := by
        intro hmemk
        obtain ⟨w, hw⟩ := mem_keysOf.mp hmemk
        have hsv : slotView k (some (k, w) : Slot K V) = some w := by simp [slotView]
        have := (lookupSlots_eq_none_iff _ _).mp hmiss (some (k, w))
          (mem_chunksView hmem hw)
        rw [hsv] at this
        cases this
      refine ⟨by simpa using hwf.hlen, ?_, ?_, ?_, ?_⟩
      · intro c hc
        simp only at hc
        rcases List.mem_or_eq_of_mem_set hc with hc | hc
        · exact hwf.hchunk c hc
        · subst hc
          rw [hlength]
          exact hwf.hchunk _ (getD_mem _ _ _ hci)
      · show t.pairs + 1 = mod_totalOcc _
        have hp := hwf.hpairs
        unfold mod_totalOcc at *
        simp only
        have hsum := sum_map_set occCount t.chunks ci c2 [] hci
        omega
      · intro a
        show ((List.map keysOf _).flatten).count a ≤ 1
        simp only
        have hcs := mod_count_set t.chunks ci c2 hci a
        have hcnt2 : (keysOf c2).count a
            = (if a = k then 1 else 0) + (keysOf (t.chunks.getD ci [])).count a := by
          by_cases hak : a = k
          · subst hak
            rw [hperm.count_eq, List.count_cons_self, if_pos rfl]
            omega
          · rw [hperm.count_eq, List.count_cons_of_ne hak, if_neg hak]
            omega
        by_cases hak : a = k
        · rw [if_pos hak] at hcnt2
          have hz2 : (keysOf (t.chunks.getD ci [])).count a = 0 := by
            rw [hak]
            exact List.count_eq_zero.mpr habs
          have hca := hwf.hcount a
          unfold mod_all_keys at hca hzero
          rw [hak] at hcnt2 hz2 hcs ⊢
          omega
        · rw [if_neg hak] at hcnt2
          have := hwf.hcount a
          unfold mod_all_keys at this
          omega
      · intro cj hcj2 a ha
        simp only at hcj2 ha
        rw [hprobe]
        have hlen2 : cj < t.chunks.length := by simpa using hcj2
        show cj ∈ mod_probe t (t.hashFn a)
        by_cases heq : cj = ci
        · subst heq
          rw [getD_set_self _ _ _ _ hci] at ha
          have := hperm.mem_iff.mp ha
          rcases List.mem_cons.mp this with rfl | hmem2
          · exact hmem
          · exact hwf.hloc cj hlen2 a hmem2
        · rw [getD_set_ne _ _ _ _ _ (fun hc => heq hc.symm)] at ha
          exact hwf.hloc cj hlen2 a ha
    | none =>
      have ht2 : (mod_insert t (t.hashFn k) k v).2
          = { t with insertFailed := t.insertFailed + 1 } := by
        rw [mod_insert_case_fail hov hfill]
      rw [ht2]
      exact ⟨hwf.hlen, hwf.hchunk, hwf.hpairs, hwf.hcount, hwf.hloc⟩

/-- Any table whose chunks are all empty and whose `pairs` counter is
zeroed is well formed -- this covers both the fresh table and the cleared
table. -/
theorem mod_wf_blank {t : hashtable_mod_spinlock_dynamic K V}
    (hchunks : t.chunks = List.replicate t.chunkCount (List.replicate t.chunkSize none))
    (hpairs : t.pairs = 0) : mod_wf t := by
  refine ⟨by rw [hchunks]; simp, ?_, ?_, ?_, ?_⟩
  · intro c hc
    rw [hchunks] at hc
    rw [List.eq_of_mem_replicate hc]
    simp
  · rw [hpairs]
    unfold mod_totalOcc
    rw [eq_comm]
    apply list_sum_zero_of_all_zero
    intro x hx
    rcases List.mem_map.mp hx with ⟨c, hc, rfl⟩
    rw [hchunks] at hc
    rw [List.eq_of_mem_replicate hc]
    exact occCount_replicate_none _
  · intro a
    unfold mod_all_keys
    rw [count_join]
    have hz : ((t.chunks.map keysOf).map (fun l => l.count a)).sum = 0 := by
      apply list_sum_zero_of_all_zero
      intro x hx
      rcases List.mem_map.mp hx with ⟨l, hl, rfl⟩
      rcases List.mem_map.mp hl with ⟨c, hc, rfl⟩
      rw [hchunks] at hc
      rw [List.eq_of_mem_replicate hc, keysOf_replicate_none]
      rfl
    rw [hz]
    exact Nat.zero_le 1
  · intro ci hci a ha
    exfalso
    have hall : ∀ c ∈ t.chunks, c = List.replicate t.chunkSize none := by
      intro c hc
      rw [hchunks] at hc
      exact List.eq_of_mem_replicate hc
    rw [getD_of_lt _ _ _ hci] at ha
    rw [hall _ (List.getElem_mem hci), keysOf_replicate_none] at ha
    cases ha

/-- Reachable MOD states: a table bound to zeroed memory via the updater
and `clear()`, evolved by `insert_or_update` (equivalently `insert` with
the hash returned by `lookup`) and `clear` (spec 4.2). -/
inductive mod_reach : hashtable_mod_spinlock_dynamic K V → Prop where
  | init (chunkSize : Nat) (hashFn : K → Nat) (total_size window : Nat) :
      mod_reach (mod_init chunkSize hashFn total_size window)
  | insert {t : hashtable_mod_spinlock_dynamic K V} (ht : mod_reach t) (k : K) (v : V) :
      mod_reach (insert_or_update t k v).2
  | clear {t : hashtable_mod_spinlock_dynamic K V} (ht : mod_reach t) :
      mod_reach (mod_clear t)

/-- Every reachable MOD state is well formed. -/
theorem mod_reach_wf {t : hashtable_mod_spinlock_dynamic K V} (h : mod_reach t) :
    mod_wf t := by
  induction h with
  | init chunkSize hashFn total_size window => exact mod_wf_blank rfl rfl
  | insert ht k v ih => exact mod_wf_insert ih k v
  | clear ht ih => exact mod_wf_blank rfl rfl

/-- Any lookup in a table whose chunks are all empty misses. -/
theorem mod_blank_lookup {t : hashtable_mod_spinlock_dynamic K V}
    (hchunks : t.chunks = List.replicate t.chunkCount (List.replicate t.chunkSize none))
    (k : K) : mod_lookup_value t k = none := by
  rw [mod_lookup_value_eq t t k rfl rfl rfl]
  rw [lookupSlots_eq_none_iff]
  intro s hs
  unfold chunksView at hs
  rw [List.mem_flatten] at hs
  obtain ⟨l, hl, hsl⟩ := hs
  rcases List.mem_map.mp hl with ⟨ci, hci, rfl⟩
  by_cases hr : ci < t.chunks.length
  · have hall : ∀ c ∈ t.chunks, c = List.replicate t.chunkSize none := by
      intro c hc
      rw [hchunks] at hc
      exact List.eq_of_mem_replicate hc
    rw [getD_of_lt _ _ _ hr] at hsl
    rw [hall _ (List.getElem_mem hr)] at hsl
    rw [List.eq_of_mem_replicate hsl]
    rfl
  · rw [getD_eq_of_length_le _ _ _ (Nat.le_of_not_lt hr)] at hsl
    cases hsl

/-! ### Benchmark harness constants (`hashtable_benchmark.cpp` lines 22-34) -/

def NUM_REPETITIONS : Nat := 10
def NUM_THREADS : Nat := 8
def L3_CACHE_SIZE : Nat := 32 * 1024 * 1024
def VALUE_SIZE : Nat := 64
def TOTAL_VALUES : Nat := L3_CACHE_SIZE / VALUE_SIZE * 8
def TOTAL_OPS : Nat := TOTAL_VALUES * NUM_THREADS * NUM_REPETITIONS
def HASHTABLE_SIZE_T : Nat := TOTAL_VALUES / 4
def HASHTABLE_EXTENDED_SIZE_T : Nat := TOTAL_VALUES / 4
def HASHTABLE_PAIRS_PER_CHUNK_T : Nat := 4
def HASHTABLE_PAIRS_PER_EXTENDED_CHUNK_T : Nat := 4

/-! ### `writer_thread_chain_spinlock` (`hashtable_benchmark.cpp` lines 113-164)

The checksum-relevant slice of the writer thread: for
`j ∈ [0, NUM_REPETITIONS)` and `i ∈ [0, TOTAL_VALUES)` the thread inserts
key `i`; `ok j i` stands for the boolean result of `ht->insert`.  On a
failed insert the thread prints and calls `exit(1)`, modelled as `none`.
`write_checksum` is a `uint64_t`, so the accumulation
`write_checksum += key + id + value_seed` is taken modulo `2 ^ 64`. -/
def writer_thread_chain_spinlock (ok : Nat → Nat → Bool) (thread_id value_seed : Nat) :
    Option Nat :=
  (List.range NUM_REPETITIONS).foldlM (fun cs j =>
    (List.range TOTAL_VALUES).foldlM (fun cs2 i =>
      if ok j i then
        some (if j = 0 ∧ i % NUM_THREADS = thread_id
              then (cs2 + (i + i % NUM_THREADS + value_seed)) % 2 ^ 64
              else cs2)
      else none) cs) 0

/-- The per-thread key ownership sum the checksum is compared against:
all keys `k < TOTAL_VALUES` with `k mod NUM_THREADS = thread_id`, each
contributing `k + thread_id + value_seed`. -/
def writer_checksum_spec (thread_id value_seed : Nat) : Nat :=
  (((List.range TOTAL_VALUES).filter
      (fun kk => decide (kk % NUM_THREADS = thread_id))).map
    (fun kk => kk + thread_id + value_seed)).sum

/-! ### `format_number` (`hashtable_benchmark.cpp` lines 73-100) -/

/-- The five-element unit table `{"", "K", "M", "G", "T"}` (line 76). -/
def units : List String := ["", "K", "M", "G", "T"]

/-- The scaling loop of `format_number` (lines 80-84):
`while (value >= 1000.0 && unit_index < 4) { value /= 1000.0; unit_index++; }`.
`value` is modelled as an exact rational; the properties verified about
this loop (the bound on `unit_index`, and the `num < 1000` fast path
where the conversion of `num` to `double` is exact) do not depend on the
difference between rational and IEEE-double division. -/
def scale_loop (value : ℚ) (unit_index : Nat) : ℚ × Nat :=
  if h : 1000 ≤ value ∧ unit_index < 4 then scale_loop (value / 1000) (unit_index + 1)
  else (value, unit_index)
termination_by 4 - unit_index
decreasing_by
  simp_wf
  omega

/-- `format_number` (lines 73-100): scale, then render.  `%zu` renders
the plain decimal; `%d%s` renders the truncated integer plus the unit;
`%.1f%s` renders one decimal digit of the value rounded to tenths plus
the unit. -/
def format_number (num : Nat) : String :=
  let vi := scale_loop (num : ℚ) 0
  let value := vi.1
  let unit_index := vi.2
  if unit_index = 0 then
    toString num
  else if value = ((⌊value⌋ : ℤ) : ℚ) then
    toString ⌊value⌋ ++ units.getD unit_index ""
  else
    toString (round (value * 10) / 10 : ℤ) ++ "." ++
      toString (round (value * 10) % 10 : ℤ) ++ units.getD unit_index ""

theorem scale_loop_step {v : ℚ} {i : Nat} (h : 1000 ≤ v ∧ i < 4) :
    scale_loop v i = scale_loop (v / 1000) (i + 1) := by
  rw [scale_loop]
  rw [dif_pos h]

theorem scale_loop_done {v : ℚ} {i : Nat} (h : ¬(1000 ≤ v ∧ i < 4)) :
    scale_loop v i = (v, i) := by
  rw [scale_loop]
  rw [dif_neg h]

/-- The scaling loop never pushes `unit_index` past 4 (the loop guard
`unit_index < 4` stops it), so `units[unit_index]` stays in bounds. -/
theorem scale_loop_le : ∀ (n : Nat) (v : ℚ) (i : Nat), 4 - i ≤ n → i ≤ 4 →
    (scale_loop v i).2 ≤ 4 := by
  intro n
  induction n with
  | zero =>
    intro v i hn hi
    have hi4 : i = 4 := by omega
    rw [scale_loop_done (by omega)]
    omega
  | succ n ih =>
    intro v i hn hi
    by_cases h : 1000 ≤ v ∧ i < 4
    · rw [scale_loop_step h]
      exact ih (v / 1000) (i + 1) (by omega) (by omega)
    · rw [scale_loop_done h]
      exact hi

/-- For `num < 1000` the loop does not run at all. -/
theorem scale_loop_small {num : Nat} (h : num < 1000) :
    scale_loop (num : ℚ) 0 = ((num : ℚ), 0) := by
  apply scale_loop_done
  intro hc
  have : ((num : ℚ)) < ((1000 : Nat) : ℚ) := by
    exact_mod_cast h
  have h1000 : ((1000 : Nat) : ℚ) = (1000 : ℚ) := by norm_num
  rw [h1000] at this
  exact absurd hc.1 (not_le.mpr this)

/-- For `num < 1000`, `format_number` takes the `unit_index == 0` branch
and renders the plain decimal with no unit suffix. -/
theorem format_number_small {num : Nat} (h : num < 1000) :
    format_number num = toString num := by
  unfold format_number
  rw [scale_loop_small h]
  simp

/-! ### C9 support: evaluating the writer checksum -/

theorem foldl_id {α β : Type} (l : List α) (b : β) :
    l.foldl (fun acc _ => acc) b = b := by
  induction l generalizing b with
  | nil => rfl
  | cons x rest ih => simpa [List.foldl] using ih b

/-- One pass with `j = 0`: the guard reduces to the ownership predicate. -/
theorem double_fold_base (M : Nat) (p : Nat → Prop) [DecidablePred p]
    (f : Nat → Nat) (inner : List Nat) :
    (List.range 1).foldl (fun cs j =>
        inner.foldl (fun cs2 i => if j = 0 ∧ p i then (cs2 + f i) % M else cs2) cs) 0
      = ((inner.filter (fun i => decide (p i))).map f).sum % M := by
  have h1 : (List.range 1).foldl (fun cs j =>
      inner.foldl (fun cs2 i => if j = 0 ∧ p i then (cs2 + f i) % M else cs2) cs) 0
      = inner.foldl (fun cs2 i =>
          if (0 : Nat) = 0 ∧ p i then (cs2 + f i) % M else cs2) 0 := rfl
  have hcond : (fun cs2 i => if (0 : Nat) = 0 ∧ p i then (cs2 + f i) % M else cs2)
      = fun cs2 i => if p i then (cs2 + f i) % M else cs2 := by
    funext cs2 i
    by_cases hp : p i
    · rw [if_pos ⟨rfl, hp⟩, if_pos hp]
    · rw [if_neg (fun hc => hp hc.2), if_neg hp]
  rw [h1, hcond]
  have hfold := foldl_add_filter_mod M p f inner 0
  rw [Nat.zero_mod] at hfold
  rw [hfold, Nat.zero_add]

/-- Repetition folding: with the accumulation guarded by `j = 0`, only
the first of `reps ≥ 1` passes contributes. -/
theorem double_fold_first_pass (M : Nat) (p : Nat → Prop) [DecidablePred p]
    (f : Nat → Nat) (inner : List Nat) :
    ∀ reps : Nat, 0 < reps →
    (List.range reps).foldl (fun cs j =>
        inner.foldl (fun cs2 i => if j = 0 ∧ p i then (cs2 + f i) % M else cs2) cs) 0
      = ((inner.filter (fun i => decide (p i))).map f).sum % M := by
  intro reps
  induction reps with
  | zero => intro h; cases h
  | succ r ih =>
    intro _
    by_cases hr : 0 < r
    · rw [List.range_succ, List.foldl_append, ih hr]
      simp only [List.foldl_cons, List.foldl_nil]
      have hne : r ≠ 0 := Nat.pos_iff_ne_zero.mp hr
      have hfix : (fun cs2 i => if r = 0 ∧ p i then (cs2 + f i) % M else cs2)
          = fun (cs2 : Nat) (_ : Nat) => cs2 := by
        funext cs2 i
        rw [if_neg (fun hc => hne hc.1)]
      rw [hfix, foldl_id]
    · have hr0 : r = 0 := by omega
      subst hr0
      exact double_fold_base M p f inner

/-- The writer accumulates exactly the ownership sum: only pass `j = 0`
contributes, and only keys owned by the thread. -/
theorem writer_thread_checksum (ok : Nat → Nat → Bool) (t s : Nat)
    (hok : ∀ j < NUM_REPETITIONS, ∀ i < TOTAL_VALUES, ok j i = true) :
    writer_thread_chain_spinlock ok t s = some (writer_checksum_spec t s % 2 ^ 64) := by
  have houter : ∀ (acc : Nat), ∀ j ∈ List.range NUM_REPETITIONS,
      (List.range TOTAL_VALUES).foldlM (fun cs2 i =>
        if ok j i then
          some (if j = 0 ∧ i % NUM_THREADS = t
                then (cs2 + (i + i % NUM_THREADS + s)) % 2 ^ 64
                else cs2)
        else none) acc
      = some ((List.range TOTAL_VALUES).foldl (fun cs2 i =>
          if j = 0 ∧ i % NUM_THREADS = t
          then (cs2 + (i + i % NUM_THREADS + s)) % 2 ^ 64
          else cs2) acc) := by
    intro acc j hj
    apply foldlM_eq_foldl_of_some
    intro acc2 i hi
    rw [hok j (List.mem_range.mp hj) i (List.mem_range.mp hi)]
    simp
  unfold writer_thread_chain_spinlock
  rw [foldlM_eq_foldl_of_some _
    (fun cs j => (List.range TOTAL_VALUES).foldl (fun cs2 i =>
      if j = 0 ∧ i % NUM_THREADS = t
      then (cs2 + (i + i % NUM_THREADS + s)) % 2 ^ 64
      else cs2) cs)
    (List.range NUM_REPETITIONS) houter 0]
  rw [double_fold_first_pass (2 ^ 64) (fun i => i % NUM_THREADS = t)
    (fun i => i + i % NUM_THREADS + s) (List.range TOTAL_VALUES) NUM_REPETITIONS
    (by decide)]
  have hs0 : (((List.range TOTAL_VALUES).filter
        (fun i => decide (i % NUM_THREADS = t))).map
      (fun i => i + i % NUM_THREADS + s)).sum = writer_checksum_spec t s := by
    unfold writer_checksum_spec
    apply congrArg
    apply List.map_congr_left
    intro i hi
    have hit : i % NUM_THREADS = t := by
      have := List.mem_filter.mp hi
      simpa using this.2
    omega
  rw [hs0]

/-- The checksum never wraps the 64-bit accumulator: for a thread id
below `NUM_THREADS` and a `uint8_t` seed the ownership sum is far below
`2 ^ 64`. -/
theorem writer_checksum_spec_lt (t s : Nat) (ht : t < NUM_THREADS) (hs : s < 256) :
    writer_checksum_spec t s < 2 ^ 64 := by
  unfold writer_checksum_spec
  have hb : ∀ x ∈ (((List.range TOTAL_VALUES).filter
        (fun kk => decide (kk % NUM_THREADS = t))).map
      (fun kk => kk + t + s)), x ≤ TOTAL_VALUES + 262 := by
    intro x hx
    rcases List.mem_map.mp hx with ⟨kk, hkk, rfl⟩
    have hkr : kk ∈ List.range TOTAL_VALUES := (List.mem_filter.mp hkk).1
    have hklt : kk < TOTAL_VALUES := List.mem_range.mp hkr
    have ht8 : t < 8 := ht
    omega
  have hsum := List.sum_le_card_nsmul _ _ hb
  rw [smul_eq_mul] at hsum
  have hlen : (((List.range TOTAL_VALUES).filter
        (fun kk => decide (kk % NUM_THREADS = t))).map
      (fun kk => kk + t + s)).length ≤ TOTAL_VALUES := by
    rw [List.length_map]
    calc ((List.range TOTAL_VALUES).filter
          (fun kk => decide (kk % NUM_THREADS = t))).length
        ≤ (List.range TOTAL_VALUES).length := List.length_filter_le _ _
      _ = TOTAL_VALUES := List.length_range _
  have hmul : (((List.range TOTAL_VALUES).filter
        (fun kk => decide (kk % NUM_THREADS = t))).map
      (fun kk => kk + t + s)).length * (TOTAL_VALUES + 262)
      ≤ TOTAL_VALUES * (TOTAL_VALUES + 262) :=
    Nat.mul_le_mul_right _ hlen
  have hlt : TOTAL_VALUES * (TOTAL_VALUES + 262) < 2 ^ 64 := by decide
  omega

/-! ### Distinct-key counting -/

theorem chain_totalOcc_eq_keys_length (t : hashtable_chain_spinlock_t K V) :
    chain_totalOcc t = (chain_all_keys t).length := by
  unfold chain_totalOcc chain_all_keys
  rw [List.length_flatten, List.map_map]
  apply congrArg List.sum
  refine List.map_congr_left ?_
  intro b hb
  show occCount b.slots = (keysOf b.slots).length
  exact occCount_eq_keys_length b.slots

theorem mod_totalOcc_eq_keys_length (t : hashtable_mod_spinlock_dynamic K V) :
    mod_totalOcc t = (mod_all_keys t).length := by
  unfold mod_totalOcc mod_all_keys
  rw [List.length_flatten, List.map_map]
  apply congrArg List.sum
  refine List.map_congr_left ?_
  intro c hc
  show occCount c = (keysOf c).length
  exact occCount_eq_keys_length c

theorem chain_wf_pairs_dedup {t : hashtable_chain_spinlock_t K V} (hwf : chain_wf t) :
    t.pairs = (chain_all_keys t).dedup.length := by
  have hnodup : (chain_all_keys t).Nodup :=
    List.nodup_iff_count_le_one.mpr (fun a => hwf.hcount a)
  rw [hnodup.dedup, ← chain_totalOcc_eq_keys_length]
  exact hwf.hpairs

theorem mod_wf_pairs_dedup {t : hashtable_mod_spinlock_dynamic K V} (hwf : mod_wf t) :
    t.pairs = (mod_all_keys t).dedup.length := by
  have hnodup : (mod_all_keys t).Nodup :=
    List.nodup_iff_count_le_one.mpr (fun a => hwf.hcount a)
  rw [hnodup.dedup, ← mod_totalOcc_eq_keys_length]
  exact hwf.hpairs

/-! ### The claims -/

/-- C1: For both tables, after any sequence of `insert` (CHAIN) /
`insert_or_update` (MOD) calls that returned true, a lookup of each
successfully inserted key `k` returns a non-null value equal to the value
of the last successful insert for `k` (round-trip, last-write-wins); the
key-equality scan guarantees the found slot's key equals `k`.  The CHAIN
half assumes the table carries its `P` buckets (`0 < P`), as every
constructed table does. -/
theorem C1_roundtrip_last_write_wins :
    (∀ (K V : Type) [DecidableEq K] (t : hashtable_chain_spinlock_t K V)
        (ops : List (K × V)) (k : K) (v : V),
        t.buckets.length = t.P → 0 < t.P →
        lastInserted (chain_run_log t ops) k = some v →
        chain_lookup_value (chain_run t ops) k = some v) ∧
    (∀ (K V : Type) [DecidableEq K] (t : hashtable_mod_spinlock_dynamic K V)
        (ops : List (K × V)) (k : K) (v : V),
        lastInserted (mod_run_log t ops) k = some v →
        mod_lookup_value (mod_run t ops) k = some v) :=
  ⟨fun _ _ _ _ _ _ _ hlen hP h => chain_run_lastInserted hlen hP h,
   fun _ _ _ _ _ _ _ h => mod_run_lastInserted h⟩

/-- witness for C1: a concrete run on both tables, with an overwrite of
key 1, looks key 1 up to its last successfully inserted value. -/
theorem C1_witness :
    chain_lookup_value
        (chain_run (chain_init 4 2 2 2 (fun n => n)) [(1, 10), (2, 20), (1, 30)]) 1
      = some 30 ∧
    mod_lookup_value (mod_run (mod_init 2 (fun n => n) 8 2) [(1, 10), (1, 40)]) 1
      = some 40 :=
  ⟨C1_roundtrip_last_write_wins.1 Nat Nat (chain_init 4 2 2 2 (fun n => n))
      [(1, 10), (2, 20), (1, 30)] 1 30 (by decide) (by decide) (by decide),
   C1_roundtrip_last_write_wins.2 Nat Nat (mod_init 2 (fun n => n) 8 2)
      [(1, 10), (1, 40)] 1 40 (by decide)⟩

/-- C2: for both tables, inserting a key that is already present succeeds
as an in-place overwrite: `pairs` and the number of occupied slots are
unchanged (and for CHAIN the pool and extended-chunk statistics too), and
the lookup afterwards yields the new value; `pairs` grows by exactly one
precisely when a previously empty slot becomes occupied, i.e. on a
successful insert of an absent key. -/
theorem C2_duplicate_insert_overwrites :
    (∀ (K V : Type) [DecidableEq K] (t : hashtable_chain_spinlock_t K V) (k : K)
        (v w : V), t.buckets.length = t.P → 0 < t.P →
        chain_lookup_value t k = some w →
        (chain_insert t k v).1 = true ∧
        (chain_insert t k v).2.pairs = t.pairs ∧
        (chain_insert t k v).2.extendedChunksCount = t.extendedChunksCount ∧
        (chain_insert t k v).2.poolUsed = t.poolUsed ∧
        chain_totalOcc (chain_insert t k v).2 = chain_totalOcc t ∧
        chain_lookup_value (chain_insert t k v).2 k = some v) ∧
    (∀ (K V : Type) [DecidableEq K] (t : hashtable_chain_spinlock_t K V) (k : K)
        (v : V), t.buckets.length = t.P → 0 < t.P →
        chain_lookup_value t k = none → (chain_insert t k v).1 = true →
        (chain_insert t k v).2.pairs = t.pairs + 1 ∧
        chain_totalOcc (chain_insert t k v).2 = chain_totalOcc t + 1) ∧
    (∀ (K V : Type) [DecidableEq K] (t : hashtable_mod_spinlock_dynamic K V) (k : K)
        (v w : V), mod_lookup_value t k = some w →
        (insert_or_update t k v).1 = true ∧
        (insert_or_update t k v).2.pairs = t.pairs ∧
        mod_totalOcc (insert_or_update t k v).2 = mod_totalOcc t ∧
        mod_lookup_value (insert_or_update t k v).2 k = some v) ∧
    (∀ (K V : Type) [DecidableEq K] (t : hashtable_mod_spinlock_dynamic K V) (k : K)
        (v : V), mod_lookup_value t k = none → (insert_or_update t k v).1 = true →
        (insert_or_update t k v).2.pairs = t.pairs + 1 ∧
        mod_totalOcc (insert_or_update t k v).2 = mod_totalOcc t + 1) := by
  refine ⟨?_, ?_, ?_, ?_⟩
  · intro K V _ t k v w hlen hP hpres
    obtain ⟨hsucc, hpairs, hext, hpool, hocc⟩ := chain_insert_present_stats hpres
    exact ⟨hsucc, hpairs, hext, hpool, hocc, chain_insert_true_lookup hlen hP hsucc⟩
  · intro K V _ t k v hlen hP habs hsucc
    exact chain_insert_absent_stats hlen hP habs hsucc
  · intro K V _ t k v w hpres
    obtain ⟨hsucc, hpairs, hocc⟩ := mod_insert_present_stats hpres
    exact ⟨hsucc, hpairs, hocc, mod_insert_true_lookup hsucc⟩
  · intro K V _ t k v habs hsucc
    exact mod_insert_absent_stats habs hsucc

/-- witness for C2: re-inserting key 5 into a table that already holds it
leaves `pairs` at 1 and updates the value in place, on both tables. -/
theorem C2_witness :
    ((chain_insert (chain_run (chain_init 2 1 1 1 (fun n => n)) [(5, 1)]) 5 9).1 = true ∧
     (chain_insert (chain_run (chain_init 2 1 1 1 (fun n => n)) [(5, 1)]) 5 9).2.pairs
        = (chain_run (chain_init 2 1 1 1 (fun n => n)) [(5, 1)]).pairs ∧
     (chain_insert (chain_run (chain_init 2 1 1 1 (fun n => n)) [(5, 1)]) 5
        9).2.extendedChunksCount
        = (chain_run (chain_init 2 1 1 1 (fun n => n)) [(5, 1)]).extendedChunksCount ∧
     (chain_insert (chain_run (chain_init 2 1 1 1 (fun n => n)) [(5, 1)]) 5 9).2.poolUsed
        = (chain_run (chain_init 2 1 1 1 (fun n => n)) [(5, 1)]).poolUsed ∧
     chain_totalOcc (chain_insert (chain_run (chain_init 2 1 1 1 (fun n => n)) [(5, 1)]) 5 9).2
        = chain_totalOcc (chain_run (chain_init 2 1 1 1 (fun n => n)) [(5, 1)]) ∧
     chain_lookup_value
        (chain_insert (chain_run (chain_init 2 1 1 1 (fun n => n)) [(5, 1)]) 5 9).2 5
        = some 9) ∧
    ((insert_or_update (mod_run (mod_init 1 (fun n => n) 2 1) [(0, 3)]) 0 8).1 = true ∧
     (insert_or_update (mod_run (mod_init 1 (fun n => n) 2 1) [(0, 3)]) 0 8).2.pairs
        = (mod_run (mod_init 1 (fun n => n) 2 1) [(0, 3)]).pairs ∧
     mod_totalOcc (insert_or_update (mod_run (mod_init 1 (fun n => n) 2 1) [(0, 3)]) 0 8).2
        = mod_totalOcc (mod_run (mod_init 1 (fun n => n) 2 1) [(0, 3)]) ∧
     mod_lookup_value
        (insert_or_update (mod_run (mod_init 1 (fun n => n) 2 1) [(0, 3)]) 0 8).2 0
        = some 8) :=
  ⟨C2_duplicate_insert_overwrites.1 Nat Nat
      (chain_run (chain_init 2 1 1 1 (fun n => n)) [(5, 1)]) 5 9 1
      (by decide) (by decide) (by decide),
   C2_duplicate_insert_overwrites.2.2.1 Nat Nat
      (mod_run (mod_init 1 (fun n => n) 2 1) [(0, 3)]) 0 8 3 (by decide)⟩

/-- C3: an insert that cannot place a new key -- for CHAIN a chain that is
completely occupied by other keys with the free pool exhausted, for MOD a
probe window completely occupied by other keys -- returns false, bumps
`insertFailed` by one, and leaves every other component of the table
untouched (the returned pair is the whole error channel). -/
theorem C3_insert_failure :
    (∀ (K V : Type) [DecidableEq K] (t : hashtable_chain_spinlock_t K V) (k : K) (v : V),
        (∀ s ∈ (chain_bucket t (chain_bucket_index t k)).slots,
          s.isSome = true ∧ slotKeyIs k s = false) →
        t.E ≤ t.poolUsed →
        chain_insert t k v = (false, { t with insertFailed := t.insertFailed + 1 })) ∧
    (∀ (K V : Type) [DecidableEq K] (t : hashtable_mod_spinlock_dynamic K V) (h : Nat)
        (k : K) (v : V),
        (∀ s ∈ chunksView t.chunks (mod_probe t h),
          s.isSome = true ∧ slotKeyIs k s = false) →
        mod_insert t h k v = (false, { t with insertFailed := t.insertFailed + 1 })) := by
  constructor
  · intro K V _ t k v hfull hpool
    have hview : ∀ s ∈ (chain_bucket t (chain_bucket_index t k)).slots,
        slotView k s = none := by
      intro s hs
      rcases hfull s hs with ⟨hsome, hkey⟩
      cases s with
      | none => rfl
      | some p =>
        simp only [slotKeyIs, decide_eq_false_iff_not] at hkey
        simp [slotView, hkey]
    have hov : overwriteSlots (chain_bucket t (chain_bucket_index t k)).slots k v = none :=
      (overwriteSlots_eq_none_iff _ _ _).mpr ((lookupSlots_eq_none_iff _ _).mpr hview)
    have hfill : fillSlots (chain_bucket t (chain_bucket_index t k)).slots k v = none :=
      (fillSlots_eq_none_iff _ _ _).mpr (fun s hs => (hfull s hs).1)
    exact chain_insert_case_fail hov hfill (fun hc => absurd hpool (Nat.not_le_of_lt hc))
  · intro K V _ t h k v hfull
    have hview : ∀ s ∈ chunksView t.chunks (mod_probe t h), slotView k s = none := by
      intro s hs
      rcases hfull s hs with ⟨hsome, hkey⟩
      cases s with
      | none => rfl
      | some p =>
        simp only [slotKeyIs, decide_eq_false_iff_not] at hkey
        simp [slotView, hkey]
    have hov : mod_overwrite t.chunks k v (mod_probe t h) = none :=
      (mod_overwrite_none_iff _ _ _ _).mpr ((lookupSlots_eq_none_iff _ _).mpr hview)
    have hfill : mod_fill t.chunks k v (mod_probe t h) = none :=
      (mod_fill_none_iff _ _ _ _).mpr (fun s hs => (hfull s hs).1)
    exact mod_insert_case_fail hov hfill

/-- witness for C3: a one-slot bucket (pool empty) and a one-slot window,
both occupied by a different key, reject the insert and bump only
`insertFailed`. -/
theorem C3_witness :
    chain_insert (chain_run (chain_init 1 0 1 1 (fun _ => 0)) [(0, 5)]) 1 9
      = (false, { chain_run (chain_init 1 0 1 1 (fun _ => 0)) [(0, 5)] with
          insertFailed :=
            (chain_run (chain_init 1 0 1 1 (fun _ => 0)) [(0, 5)]).insertFailed + 1 }) ∧
    mod_insert (mod_run (mod_init 1 (fun _ => 0) 1 1) [(0, 7)]) 0 1 9
      = (false, { mod_run (mod_init 1 (fun _ => 0) 1 1) [(0, 7)] with
          insertFailed :=
            (mod_run (mod_init 1 (fun _ => 0) 1 1) [(0, 7)]).insertFailed + 1 }) :=
  ⟨C3_insert_failure.1 Nat Nat (chain_run (chain_init 1 0 1 1 (fun _ => 0)) [(0, 5)]) 1 9
      (by decide) (by decide),
   C3_insert_failure.2 Nat Nat (mod_run (mod_init 1 (fun _ => 0) 1 1) [(0, 7)]) 0 1 9
      (by decide)⟩

/-- C4: in every reachable table state, `stats.pairs` equals the total
number of occupied slots, which equals the number of distinct stored keys;
for CHAIN, `stats.extendedChunksCount` equals the number of extended
chunks currently linked into any chain. -/
theorem C4_stats_invariant :
    (∀ (K V : Type) [DecidableEq K] (t : hashtable_chain_spinlock_t K V),
        chain_reach t →
        t.pairs = chain_totalOcc t ∧
        t.pairs = (chain_all_keys t).dedup.length ∧
        t.extendedChunksCount = chain_totalExt t) ∧
    (∀ (K V : Type) [DecidableEq K] (t : hashtable_mod_spinlock_dynamic K V),
        mod_reach t →
        t.pairs = mod_totalOcc t ∧
        t.pairs = (mod_all_keys t).dedup.length) := by
  constructor
  · intro K V _ t hr
    have hwf := chain_reach_wf hr
    exact ⟨hwf.hpairs, chain_wf_pairs_dedup hwf, hwf.hext⟩
  · intro K V _ t hr
    have hwf := mod_reach_wf hr
    exact ⟨hwf.hpairs, mod_wf_pairs_dedup hwf⟩

/-- witness for C4: a concrete reachable state of each table (one insert
after initialisation) satisfies the statistics invariants. -/
theorem C4_witness :
    ((chain_insert (chain_init 2 1 1 1 (fun n => n)) 3 7).2.pairs
        = chain_totalOcc (chain_insert (chain_init 2 1 1 1 (fun n => n)) 3 7).2 ∧
     (chain_insert (chain_init 2 1 1 1 (fun n => n)) 3 7).2.pairs
        = (chain_all_keys (chain_insert (chain_init 2 1 1 1 (fun n => n)) 3 7).2).dedup.length ∧
     (chain_insert (chain_init 2 1 1 1 (fun n => n)) 3 7).2.extendedChunksCount
        = chain_totalExt (chain_insert (chain_init 2 1 1 1 (fun n => n)) 3 7).2) ∧
    ((insert_or_update (mod_init 1 (fun n => n) 2 1) 0 5).2.pairs
        = mod_totalOcc (insert_or_update (mod_init 1 (fun n => n) 2 1) 0 5).2 ∧
     (insert_or_update (mod_init 1 (fun n => n) 2 1) 0 5).2.pairs
        = (mod_all_keys (insert_or_update (mod_init 1 (fun n => n) 2 1) 0 5).2).dedup.length) :=
  ⟨C4_stats_invariant.1 Nat Nat _
      (chain_reach.insert (chain_reach.init 2 1 1 1 (fun n => n) (by decide) (by decide)) 3 7),
   C4_stats_invariant.2 Nat Nat _
      (mod_reach.insert (mod_reach.init 1 (fun n => n) 2 1) 0 5)⟩

/-- C5: for both tables a lookup miss writes nulls into both
out-parameters and returns with no lock held; only a hit returns with the
bucket/chunk lock held, and that single lock is released exactly once by
the benchmark caller's `if (locker) locker->unlock()` step, after which no
lock is held. -/
theorem C5_lookup_lock_discipline :
    (∀ (K V : Type) [DecidableEq K] (t : hashtable_chain_spinlock_t K V) (k : K),
        ((chain_lookup t k).1 = none ↔ (chain_lookup t k).2.1 = none) ∧
        ((chain_lookup t k).1 = none → heldAfter (chain_lookup t k).2.2 = []) ∧
        (∀ v, (chain_lookup t k).1 = some v →
          ∃ l, (chain_lookup t k).2.1 = some l ∧
            heldAfter (chain_lookup t k).2.2 = [l] ∧
            heldAfter ((chain_lookup t k).2.2 ++ callerRelease (chain_lookup t k).2.1) = [])) ∧
    (∀ (K V : Type) [DecidableEq K] (t : hashtable_mod_spinlock_dynamic K V) (k : K),
        ((mod_lookup t k).2.1 = none ↔ (mod_lookup t k).2.2.1 = none) ∧
        ((mod_lookup t k).2.1 = none → heldAfter (mod_lookup t k).2.2.2 = []) ∧
        (∀ v, (mod_lookup t k).2.1 = some v →
          ∃ l, (mod_lookup t k).2.2.1 = some l ∧
            heldAfter (mod_lookup t k).2.2.2 = [l] ∧
            heldAfter ((mod_lookup t k).2.2.2
              ++ callerRelease (mod_lookup t k).2.2.1) = [])) := by
  constructor
  · intro K V _ t k
    cases hl : lookupSlots (chain_bucket t (chain_bucket_index t k)).slots k with
    | none =>
      have heq : chain_lookup t k
          = (none, none, [lock_event.acquire (chain_bucket_index t k),
              lock_event.release (chain_bucket_index t k)]) := by
        unfold chain_lookup
        simp only [hl]
      rw [heq]
      refine ⟨by simp, fun _ => ?_, fun v hv => by simp at hv⟩
      simp [heldAfter, heldStep, List.erase_cons_head]
    | some w =>
      have heq : chain_lookup t k
          = (some w, some (chain_bucket_index t k),
              [lock_event.acquire (chain_bucket_index t k)]) := by
        unfold chain_lookup
        simp only [hl]
      rw [heq]
      refine ⟨by simp, fun hmiss => by simp at hmiss, fun v hv => ?_⟩
      refine ⟨chain_bucket_index t k, rfl, ?_, ?_⟩
      · simp [heldAfter, heldStep]
      · simp [callerRelease, heldAfter, heldStep, List.erase_cons_head]
  · intro K V _ t k
    have hlock := mod_lookup_go_locks t.chunks k (t.hashFn k) (mod_probe t (t.hashFn k))
    refine ⟨?_, fun hmiss => ((hlock.1) hmiss).2, fun v hv => ?_⟩
    · constructor
      · intro hmiss
        exact ((hlock.1) hmiss).1
      · intro hnolock
        cases hval : (mod_lookup t k).2.1 with
        | none => rfl
        | some w =>
          obtain ⟨l, hl, _⟩ := (hlock.2) w hval
          have hl2 : (mod_lookup t k).2.2.1 = some l := hl
          rw [hnolock] at hl2
          cases hl2
    · obtain ⟨l, hl, hheld⟩ := (hlock.2) v hv
      refine ⟨l, hl, hheld, ?_⟩
      rw [heldAfter_append]
      show List.foldl heldStep
        (heldAfter (mod_lookup_go t.chunks k (t.hashFn k) (mod_probe t (t.hashFn k))).2.2.2)
        (callerRelease
          (mod_lookup_go t.chunks k (t.hashFn k) (mod_probe t (t.hashFn k))).2.2.1) = []
      rw [hl, hheld]
      simp [callerRelease, heldStep, List.erase_cons_head]

/-- witness for C5: a concrete hit on both tables returns the single held
lock and the caller's unlock step empties the held set. -/
theorem C5_witness :
    (∃ l, (chain_lookup (chain_run (chain_init 2 1 1 1 (fun n => n)) [(1, 9)]) 1).2.1
          = some l ∧
        heldAfter (chain_lookup (chain_run (chain_init 2 1 1 1 (fun n => n)) [(1, 9)]) 1).2.2
          = [l] ∧
        heldAfter ((chain_lookup (chain_run (chain_init 2 1 1 1 (fun n => n)) [(1, 9)]) 1).2.2
          ++ callerRelease
            (chain_lookup (chain_run (chain_init 2 1 1 1 (fun n => n)) [(1, 9)]) 1).2.1) = []) ∧
    (∃ l, (mod_lookup (mod_run (mod_init 1 (fun n => n) 2 1) [(0, 3)]) 0).2.2.1 = some l ∧
        heldAfter (mod_lookup (mod_run (mod_init 1 (fun n => n) 2 1) [(0, 3)]) 0).2.2.2 = [l] ∧
        heldAfter ((mod_lookup (mod_run (mod_init 1 (fun n => n) 2 1) [(0, 3)]) 0).2.2.2
          ++ callerRelease
            (mod_lookup (mod_run (mod_init 1 (fun n => n) 2 1) [(0, 3)]) 0).2.2.1) = []) :=
  ⟨(C5_lookup_lock_discipline.1 Nat Nat
      (chain_run (chain_init 2 1 1 1 (fun n => n)) [(1, 9)]) 1).2.2 9 (by decide),
   (C5_lookup_lock_discipline.2 Nat Nat
      (mod_run (mod_init 1 (fun n => n) 2 1) [(0, 3)]) 0).2.2 3 (by decide)⟩

/-- C6: a MOD lookup returns the hash `H(K)` on every path -- hit or
exhausted probe window -- so the returned hash passed unchanged to a
subsequent `insert(h, K, V)` performs exactly the insert-or-update walk
for `K`. -/
theorem C6_lookup_returns_hash :
    ∀ (K V : Type) [DecidableEq K] (t : hashtable_mod_spinlock_dynamic K V)
      (k : K) (v : V),
      (mod_lookup t k).1 = t.hashFn k ∧
      mod_insert t (mod_lookup t k).1 k v = insert_or_update t k v := by
  intro K V _ t k v
  have hh : (mod_lookup t k).1 = t.hashFn k :=
    mod_lookup_go_hash t.chunks k (t.hashFn k) (mod_probe t (t.hashFn k))
  exact ⟨hh, by rw [hh]; rfl⟩

/-- C7: `clear()` on either table zeroes `pairs` and `insertFailed` (and
the remaining CHAIN counters), makes every key miss on lookup, empties all
buckets and chunks, and for CHAIN returns all extended chunks to the pool
(`poolUsed = 0`, all `extCount = 0`). -/
theorem C7_clear_semantics :
    (∀ (K V : Type) [DecidableEq K] (t : hashtable_chain_spinlock_t K V),
        chain_stats (chain_clear t) = ⟨0, 0, 0, 0⟩ ∧
        (chain_clear t).poolUsed = 0 ∧
        (∀ k : K, chain_lookup_value (chain_clear t) k = none) ∧
        (∀ b ∈ (chain_clear t).buckets, b.extCount = 0 ∧ ∀ s ∈ b.slots, s = none)) ∧
    (∀ (K V : Type) [DecidableEq K] (t : hashtable_mod_spinlock_dynamic K V),
        mod_stats (mod_clear t) = ⟨0, 0⟩ ∧
        (∀ k : K, mod_lookup_value (mod_clear t) k = none) ∧
        (∀ c ∈ (mod_clear t).chunks, ∀ s ∈ c, s = none)) := by
  constructor
  · intro K V _ t
    refine ⟨rfl, rfl, fun k => chain_init_lookup _ _ _ _ _ _, ?_⟩
    intro b hb
    have : b = (⟨List.replicate t.c1 none, 0⟩ : bucket_t K V) :=
      List.eq_of_mem_replicate hb
    subst this
    exact ⟨rfl, fun s hs => List.eq_of_mem_replicate hs⟩
  · intro K V _ t
    refine ⟨rfl, fun k => mod_blank_lookup rfl k, ?_⟩
    intro c hc s hs
    have : c = List.replicate t.chunkSize none := List.eq_of_mem_replicate hc
    subst this
    exact List.eq_of_mem_replicate hs

/-- witness for C7: clearing concrete populated tables makes the
previously present keys miss. -/
theorem C7_witness :
    chain_lookup_value (chain_clear (chain_run (chain_init 2 1 1 1 (fun n => n)) [(1, 9)])) 1
      = none ∧
    mod_lookup_value (mod_clear (mod_run (mod_init 1 (fun n => n) 2 1) [(0, 3)])) 0
      = none :=
  ⟨(C7_clear_semantics.1 Nat Nat
      (chain_run (chain_init 2 1 1 1 (fun n => n)) [(1, 9)])).2.2.1 1,
   (C7_clear_semantics.2 Nat Nat
      (mod_run (mod_init 1 (fun n => n) 2 1) [(0, 3)])).2.1 0⟩

/-- C8: scenario S1 -- CHAIN with `P = 32768`, `E = 32768`,
`c1 = c2 = 4`, single-threaded inserts of the distinct keys
`0 .. 131071` (whatever the 64-byte values and whatever the hash
function): every insert returns true, `stats.pairs = 131072`,
`stats.insertFailed = 0`, and every subsequent lookup returns the
inserted value. -/
theorem C8_scenario_s1 :
    ∀ (V : Type) (H : Nat → Nat) (vfun : Nat → V),
      (∀ e ∈ chain_run_log (chain_init 32768 32768 4 4 H (V := V))
          ((List.range 131072).map (fun i => (i, vfun i))), e.2 = true) ∧
      (chain_run (chain_init 32768 32768 4 4 H (V := V))
          ((List.range 131072).map (fun i => (i, vfun i)))).pairs = 131072 ∧
      (chain_run (chain_init 32768 32768 4 4 H (V := V))
          ((List.range 131072).map (fun i => (i, vfun i)))).insertFailed = 0 ∧
      ∀ i < 131072,
        chain_lookup_value (chain_run (chain_init 32768 32768 4 4 H (V := V))
          ((List.range 131072).map (fun i => (i, vfun i)))) i = some (vfun i) := by
  intro V H vfun
  have hwf := chain_wf_init 32768 32768 4 4 H (V := V) (by decide) (by decide)
  have hfresh : ∀ kv ∈ (List.range 131072).map (fun i => (i, vfun i)),
      chain_lookup_value (chain_init 32768 32768 4 4 H (V := V)) kv.1 = none :=
    fun kv _ => chain_init_lookup _ _ _ _ _ _
  have hnodup : (((List.range 131072).map (fun i => (i, vfun i))).map Prod.fst).Nodup := by
    have hcomp : (Prod.fst ∘ fun i : Nat => (i, vfun i)) = id := rfl
    rw [List.map_map, hcomp, List.map_id]
    exact List.nodup_range 131072
  have hlen : ((List.range 131072).map (fun i => (i, vfun i))).length = 131072 := by
    rw [List.length_map, List.length_range]
  have hc : (chain_init 32768 32768 4 4 H (V := V)).c2
      ≤ (chain_init 32768 32768 4 4 H (V := V)).c1 := Nat.le_refl _
  have hbound : (chain_init 32768 32768 4 4 H (V := V)).pairs
      + ((List.range 131072).map (fun i => (i, vfun i))).length
      ≤ (chain_init 32768 32768 4 4 H (V := V)).c1
        + (chain_init 32768 32768 4 4 H (V := V)).c2
          * (chain_init 32768 32768 4 4 H (V := V)).E := by
    rw [hlen]
    show 0 + 131072 ≤ 4 + 4 * 32768
    decide
  obtain ⟨hall, hp, hif, hwfrun⟩ :=
    chain_run_capacity (chain_init 32768 32768 4 4 H (V := V)) hwf hc hfresh hnodup hbound
  refine ⟨hall, ?_, ?_, ?_⟩
  · rw [hp, hlen]
    show 0 + 131072 = 131072
    decide
  · rw [hif]
    rfl
  · intro i hi
    have hmem : (i, vfun i) ∈ (List.range 131072).map (fun j => (j, vfun j)) :=
      List.mem_map_of_mem _ (List.mem_range.mpr hi)
    exact chain_run_fresh_lookup hwf.hlen hwf.hP hall hnodup (i, vfun i) hmem

/-- witness for C8: instantiating the scenario at concrete value type,
hash and payload function, key 0 looks up to its value. -/
theorem C8_witness :
    chain_lookup_value (chain_run (chain_init 32768 32768 4 4 (fun n => n) (V := Nat))
        ((List.range 131072).map (fun i => (i, i + 1)))) 0 = some 1 :=
  (C8_scenario_s1 Nat (fun n => n) (fun i => i + 1)).2.2.2 0 (by decide)

/-- C9: assuming every insert returns true, the writer thread of the
CHAIN benchmark ends with `write_checksum` equal to the sum of
`k + thread_id + value_seed` over all keys `k < TOTAL_VALUES` owned by
the thread (`k mod NUM_THREADS = thread_id`): the checksum is accumulated
only during the first of the `NUM_REPETITIONS` passes and only for owned
keys; with `thread_id < NUM_THREADS` and a `uint8_t` seed the 64-bit
accumulator never wraps. -/
theorem C9_writer_checksum (ok : Nat → Nat → Bool) (t s : Nat)
    (ht : t < NUM_THREADS) (hs : s < 256)
    (hok : ∀ j < NUM_REPETITIONS, ∀ i < TOTAL_VALUES, ok j i = true) :
    writer_thread_chain_spinlock ok t s = some (writer_checksum_spec t s) := by
  rw [writer_thread_checksum ok t s hok]
  rw [Nat.mod_eq_of_lt (writer_checksum_spec_lt t s ht hs)]

/-- witness for C9: with every insert succeeding, thread 3 with seed 200
computes exactly its ownership sum. -/
theorem C9_witness :
    writer_thread_chain_spinlock (fun _ _ => true) 3 200
      = some (writer_checksum_spec 3 200) :=
  C9_writer_checksum (fun _ _ => true) 3 200 (by decide) (by decide)
    (fun _ _ _ _ => rfl)

/-- C10: the scaling loop of `format_number` always stops with
`unit_index` between 0 and 4, so `units[unit_index]` stays inside the
five-element unit table; and for every `num < 1000` the loop does not run
(`unit_index = 0`) and `format_number` returns the plain decimal
representation of `num` with no unit suffix. -/
theorem C10_format_number_safety :
    (∀ num : Nat, (scale_loop (num : ℚ) 0).2 ≤ 4 ∧
      (scale_loop (num : ℚ) 0).2 < units.length) ∧
    (∀ num : Nat, num < 1000 →
      (scale_loop (num : ℚ) 0).2 = 0 ∧ format_number num = toString num) := by
  constructor
  · intro num
    have hle : (scale_loop (num : ℚ) 0).2 ≤ 4 :=
      scale_loop_le 4 (num : ℚ) 0 (by omega) (by omega)
    exact ⟨hle, by simpa [units] using Nat.lt_succ_of_le hle⟩
  · intro num hnum
    refine ⟨?_, format_number_small hnum⟩
    rw [scale_loop_small hnum]

/-- witness for C10: 999 is rendered as plain decimal with
`unit_index = 0`. -/
theorem C10_witness :
    (scale_loop ((999 : Nat) : ℚ) 0).2 = 0 ∧ format_number 999 = toString 999 :=
  C10_format_number_safety.2 999 (by decide)

end Yanet